import Mathlib

/-!
# node-filesystem-utils: path classification core

A shallow embedding of the pure path functions of `src/index.js`
(`splitPath`, `isDirectory`, `getDirectory`, `getFileObject`) together with the
two functions of Node's `path` module they call (`path.normalize`,
`path.extname`, POSIX flavour) and the `lookup` function of `mime-types`.
The callback helpers `writeFile`, `writeFiles` and `readFiles` follow, in
continuation-passing style over a file system given as a parameter.

`path.normalize` and `path.extname` are transcribed from the character loops of
Node's `lib/path.js` (`normalizeString`, `posix.normalize`, `posix.extname`);
the segment-level functions further down are proved equal to them.

JavaScript strings are modelled as lists of characters.  Every character test
the code makes is against `/` or `.`, and the lengths it compares give the same
branch results counted in code points as in UTF-16 code units.
-/

namespace FileUtil

/-- A JavaScript string. -/
abbrev JSString := List Char

/-- The exceptions the modelled code can raise: a `TypeError`, or an `Error`
thrown with a message. -/
inductive JSError where
  | typeError
  | error (message : JSString)
  deriving DecidableEq, Repr

/-- The argument values the path functions are called with. -/
inductive JSValue where
  | undefined
  | null
  | str (s : JSString)
  deriving DecidableEq, Repr

/-! ## String primitives -/

/-- `s.indexOf(c)` for a one-character needle: the first position, or `-1`. -/
def indexOf (s : JSString) (c : Char) : Int :=
  if c ∈ s then (s.indexOf c : Nat) else -1

/-- `s.lastIndexOf(c)` for a one-character needle: the last position, or `-1`. -/
def lastIndexOf (s : JSString) (c : Char) : Int :=
  if c ∈ s then ((s.length - 1 - s.reverse.indexOf c : Nat) : Int) else -1

/-- `s.slice(a, b)` for `0 ≤ a` and `0 ≤ b`. -/
def slice (s : JSString) (a b : Int) : JSString :=
  (s.drop a.toNat).take (b.toNat - a.toNat)

/-- The scanning loop of `s.split(sep)` for a non-empty separator: `skip` counts
the characters of a matched separator still to be passed over, `cur` holds the
current fragment reversed. -/
def splitGo (sep : JSString) : Nat → JSString → JSString → List JSString
  | _, [], cur => [cur.reverse]
  | skip + 1, _ :: cs, cur => splitGo sep skip cs cur
  | 0, c :: cs, cur =>
    if sep.isPrefixOf (c :: cs) then cur.reverse :: splitGo sep (sep.length - 1) cs []
    else splitGo sep 0 cs (c :: cur)

/-- `s.split(sep)` for a non-empty separator string. -/
def split (s sep : JSString) : List JSString :=
  splitGo sep 0 s []

/-- `delimiter || '/'`: an absent or empty delimiter is replaced by `/`. -/
def delimiterOrSlash : Option JSString → JSString
  | some (c :: cs) => c :: cs
  | _ => ['/']

/-! ## `path.normalize` (Node.js `lib/path.js`, POSIX) -/

/-- The local variables of `normalizeString`. -/
structure NormState where
  res : JSString
  lastSegmentLength : Int
  lastSlash : Int
  dots : Int
  code : Char
  deriving DecidableEq, Repr

/-- One iteration of the `for` loop of `normalizeString` at index `i`;
`none` is the `break`. -/
def normalizeStringBody (path : JSString) (allowAboveRoot : Bool) (i : Nat)
    (st : NormState) : Option NormState :=
  let fetched : Option Char :=
    if i < path.length then some (path.getD i '/')
    else if st.code = '/' then none
    else some '/'
  match fetched with
  | none => none
  | some code =>
    let aboveRoot : NormState :=
      if allowAboveRoot then
        { res := if st.res.length > 0 then st.res ++ ['/', '.', '.'] else ['.', '.'],
          lastSegmentLength := 2, lastSlash := i, dots := 0, code := code }
      else
        { st with lastSlash := i, dots := 0, code := code }
    if code = '/' then
      if st.lastSlash = (i : Int) - 1 ∨ st.dots = 1 then
        some { st with lastSlash := i, dots := 0, code := code }
      else if st.dots = 2 then
        if st.res.length < 2 ∨ st.lastSegmentLength ≠ 2 ∨
            st.res[st.res.length - 1]? ≠ some '.' ∨
            st.res[st.res.length - 2]? ≠ some '.' then
          if st.res.length > 2 then
            let lastSlashIndex := lastIndexOf st.res '/'
            if lastSlashIndex = -1 then
              some { res := [], lastSegmentLength := 0, lastSlash := i, dots := 0, code := code }
            else
              let res := slice st.res 0 lastSlashIndex
              some { res := res,
                     lastSegmentLength := (res.length : Int) - 1 - lastIndexOf res '/',
                     lastSlash := i, dots := 0, code := code }
          else if st.res.length ≠ 0 then
            some { res := [], lastSegmentLength := 0, lastSlash := i, dots := 0, code := code }
          else some aboveRoot
        else some aboveRoot
      else
        let seg := slice path (st.lastSlash + 1) i
        some { res := if st.res.length > 0 then st.res ++ '/' :: seg else seg,
               lastSegmentLength := (i : Int) - st.lastSlash - 1,
               lastSlash := i, dots := 0, code := code }
    else if code = '.' ∧ st.dots ≠ -1 then
      some { st with dots := st.dots + 1, code := code }
    else
      some { st with dots := -1, code := code }

/-- The `for (i = 0; i <= path.length; ++i)` loop of `normalizeString`, with `n`
iterations left. -/
def normalizeStringLoop (path : JSString) (allowAboveRoot : Bool) :
    Nat → Nat → NormState → JSString
  | 0, _, st => st.res
  | n + 1, i, st =>
    match normalizeStringBody path allowAboveRoot i st with
    | none => st.res
    | some st' => normalizeStringLoop path allowAboveRoot n (i + 1) st'

/-- `normalizeString(path, allowAboveRoot, '/', isPosixPathSeparator)`: resolves
`.` and `..` segments and collapses separators. -/
def normalizeString (path : JSString) (allowAboveRoot : Bool) : JSString :=
  normalizeStringLoop path allowAboveRoot (path.length + 1) 0
    { res := [], lastSegmentLength := 0, lastSlash := -1, dots := 0, code := Char.ofNat 0 }

/-- `posix.normalize(path)` on a string. -/
def normalizeStr (path : JSString) : JSString :=
  if path.length = 0 then ['.']
  else
    let isAbsolute := path[0]? = some '/'
    let trailingSeparator := path[path.length - 1]? = some '/'
    let p := normalizeString path (!isAbsolute)
    if p.length = 0 then
      if isAbsolute then ['/']
      else if trailingSeparator then ['.', '/'] else ['.']
    else
      let p := if trailingSeparator then p ++ ['/'] else p
      if isAbsolute then '/' :: p else p

/-- `path.normalize(path)`: `validateString` rejects what is not a string. -/
def normalize : JSValue → Except JSError JSString
  | .str s => .ok (normalizeStr s)
  | _ => .error .typeError

/-! ## `path.extname` (Node.js `lib/path.js`, POSIX) -/

/-- The local variables of `extname`. -/
structure ExtState where
  startDot : Int
  startPart : Int
  «end» : Int
  matchedSlash : Bool
  preDotState : Int
  deriving DecidableEq, Repr

/-- One iteration of the loop of `extname` at index `i`; `Sum.inl` is the
`break` (with the state it leaves), `Sum.inr` goes on. -/
def extnameBody (path : JSString) (i : Nat) (st : ExtState) : ExtState ⊕ ExtState :=
  let code := path.getD i '/'
  if code = '/' then
    if !st.matchedSlash then .inl { st with startPart := (i : Int) + 1 }
    else .inr st
  else
    let st1 : ExtState :=
      if st.«end» = -1 then { st with matchedSlash := false, «end» := (i : Int) + 1 } else st
    if code = '.' then
      if st1.startDot = -1 then .inr { st1 with startDot := i }
      else if st1.preDotState ≠ 1 then .inr { st1 with preDotState := 1 }
      else .inr st1
    else if st1.startDot ≠ -1 then .inr { st1 with preDotState := -1 }
    else .inr st1

/-- The `for (i = path.length - 1; i >= 0; --i)` loop of `extname`; the first
argument is `i + 1`. -/
def extnameLoop (path : JSString) : Nat → ExtState → ExtState
  | 0, st => st
  | i + 1, st =>
    match extnameBody path i st with
    | .inl st' => st'
    | .inr st' => extnameLoop path i st'

/-- `posix.extname(path)` on a string. -/
def extname (path : JSString) : JSString :=
  let st := extnameLoop path path.length
    { startDot := -1, startPart := 0, «end» := -1, matchedSlash := true, preDotState := 0 }
  if st.startDot = -1 ∨ st.«end» = -1 ∨ st.preDotState = 0 ∨
      (st.preDotState = 1 ∧ st.startDot = st.«end» - 1 ∧ st.startDot = st.startPart + 1) then []
  else slice path st.startDot st.«end»

/-! ## `mime-types` -/

/-- The two things `mimetypes.lookup` takes from outside this repository: the
extension table `types` of `mime-db` and `String.prototype.toLowerCase`. -/
structure MimeDb where
  types : JSString → Option JSString
  toLowerCase : JSString → JSString

/-- `mimetypes.lookup(path)` on a string; `none` is the result `false`. -/
def lookup (db : MimeDb) (path : JSString) : Option JSString :=
  if path.length = 0 then none
  else
    let extension := (db.toLowerCase (extname ('x' :: '.' :: path))).drop 1
    if extension.length = 0 then none
    else db.types extension

/-! ## `src/index.js` -/

/-- `fileUtil.splitPath(dir, delimiter)`. -/
def splitPath (dir : JSValue) (delimiter : Option JSString) : Except JSError (List JSString) :=
  match dir with
  | .undefined => .ok []
  | .null => .ok []
  | .str [] => .ok []
  | .str (c :: cs) => do
    let dir ← normalize (.str (c :: cs))
    let parts := split dir (delimiterOrSlash delimiter)
    .ok (parts.filter fun part => part.length ≠ 0)

/-- `fileUtil.getDirectory(filePath, delimiter)`. -/
def getDirectory (filePath : JSValue) (delimiter : Option JSString) : Except JSError JSString := do
  let parts ← splitPath (.str (← normalize filePath)) delimiter
  let res : JSString := ['/']
  if parts.length = 0 then
    .ok res
  else if parts.length = 1 ∧ (parts[0]?.map fun p => indexOf p '.') ≠ some (-1) then
    .ok res
  else
    match parts[parts.length - 1]? with
    | none => .error .typeError
    | some last =>
      let parts := if indexOf last '.' ≠ -1 then parts.dropLast else parts
      let res := parts.foldl (fun res part => res ++ (part ++ delimiterOrSlash delimiter)) res
      normalize (.str res)

/-- `fileUtil.isDirectory(filePath)`; reading `indexOf` off the `undefined`
that `parts[parts.length - 1]` gives for an empty `parts` is a `TypeError`. -/
def isDirectory (filePath : JSValue) : Except JSError Bool := do
  let filePath ← normalize filePath
  let parts ← splitPath (.str filePath) none
  match parts[parts.length - 1]? with
  | none => .error .typeError
  | some last => .ok (indexOf last '.' = -1)

/-- The object `getFileObject` returns; `mimetype = none` is `false`. -/
structure FileDescriptor where
  mimetype : Option JSString
  name : JSString
  path : JSString
  dir : JSString
  extension : JSString
  deriving DecidableEq, Repr

/-- `fileUtil.getFileObject(filePath)`; `.ok none` is the result `null`. -/
def getFileObject (db : MimeDb) (filePath : JSValue) :
    Except JSError (Option FileDescriptor) :=
  match filePath with
  | .undefined => .ok none
  | .null => .ok none
  | .str [] => .ok none
  | .str (c :: cs) => do
    let filePath ← normalize (.str (c :: cs))
    let split ← splitPath (.str filePath) none
    let ext := extname filePath
    let name ←
      if ← isDirectory (.str filePath) then pure []
      else match split[split.length - 1]? with
        | some last => pure last
        | none => throw JSError.typeError
    let dir ← getDirectory (.str filePath) none
    .ok (some
      { mimetype := lookup db filePath
        name := name
        path := filePath
        dir := dir
        extension := ext.filter fun ch => ch ≠ '.' })

/-! ## The callback helpers of `src/index.js` (`readFiles`, `writeFile`, `writeFiles`)

The helpers are written in continuation-passing style, as the source is: a
callback is a function from the world it is called in to the outcome of the rest
of the run.  The file system (`fs-extra`) is a parameter. -/

/-- What a callback receives as its second argument: `null`, a value, or an array. -/
inductive JSResult where
  | null
  | value (v : JSValue)
  | array (vs : List JSResult)
  deriving Repr

/-- The outcome of a run: the world it leaves, and the exception it raised, if any. -/
structure Outcome (ω : Type) where
  world : ω
  thrown : Option JSError

/-- A callback `function(err, result)`. -/
abbrev Callback (ω : Type) := JSValue → JSResult → ω → Outcome ω

/-- An optional argument that may be a string or a function. -/
inductive Arg (ω : Type) where
  | undefined
  | str (s : JSString)
  | fn (f : Callback ω)

/-- JavaScript truthiness of a value: only a non-empty string is truthy. -/
def truthy : JSValue → Bool
  | .str (_ :: _) => true
  | _ => false

/-- `_.isFunction(a)`. -/
def isFunction {ω : Type} : Arg ω → Bool
  | .fn _ => true
  | _ => false

/-- The call `a(err, result)`: a `TypeError` when `a` is not a function. -/
def call {ω : Type} (a : Arg ω) (err : JSValue) (result : JSResult) (w : ω) : Outcome ω :=
  match a with
  | .fn f => f err result w
  | _ => ⟨w, some .typeError⟩

/-- The functions of `fs-extra` the helpers call, each returning what it passes to
its callback (and the world it leaves). -/
structure Fs (ω : Type) where
  «exists» : JSString → ω → Bool
  readFile : JSString → Option JSString → ω → JSValue × JSValue
  ensureDir : JSString → ω → JSValue × ω
  writeFile : JSValue → JSValue → JSString → ω → JSValue × ω

/-- `path.join(...args)` (Node.js `lib/path.js`, POSIX): the non-empty arguments
joined by `/`, then normalized; `none` while no non-empty argument was seen. -/
def joinLoop : List JSValue → Option JSString → Except JSError (Option JSString)
  | [], joined => .ok joined
  | .str arg :: args, joined =>
    if arg.length > 0 then
      match joined with
      | none => joinLoop args (some arg)
      | some j => joinLoop args (some (j ++ '/' :: arg))
    else joinLoop args joined
  | _ :: _, _ => .error .typeError

/-- `path.join(...args)`. -/
def join (args : List JSValue) : Except JSError JSString :=
  if args.length = 0 then .ok ['.']
  else do
    match ← joinLoop args none with
    | none => .ok ['.']
    | some joined => normalize (.str joined)

/-- `_.flatten(array)`: flattens one level. -/
def flatten : List JSResult → List JSResult
  | [] => []
  | .array vs :: rest => vs ++ flatten rest
  | v :: rest => v :: flatten rest

/-- `async.mapLimit(arr, 1, iterator, callback)`: the items one at a time, in
order; the first error ends the run. `results` holds the results so far. -/
def mapLimit {α ω : Type} (iterator : α → Callback ω → ω → Outcome ω)
    (callback : JSValue → List JSResult → ω → Outcome ω) :
    List α → List JSResult → ω → Outcome ω
  | [], results, w => callback .null results w
  | x :: xs, results, w =>
    iterator x (fun err v w' =>
      if truthy err then callback err (results ++ [v]) w'
      else mapLimit iterator callback xs (results ++ [v]) w') w

/-- `_.each(array, iteratee)` for an iteratee that does not return `false`
(the callbacks here return nothing); an exception ends the loop. -/
def each {α ω : Type} (iteratee : α → ω → Outcome ω) : List α → ω → Outcome ω
  | [], w => ⟨w, none⟩
  | x :: xs, w =>
    match iteratee x w with
    | ⟨w', none⟩ => each iteratee xs w'
    | out => out

/-- `fileUtil.writeFile(file, data, encoding, callback)`. -/
def writeFile {ω : Type} (fs : Fs ω) (file data : JSValue) (encoding callback : Arg ω)
    (w : ω) : Outcome ω :=
  if !truthy file then
    call callback (.str ("Missing required parameter file").toList) .null w
  else if !truthy data then
    call callback (.str ("Missing required parameter data").toList) .null w
  else
    match getDirectory file none with
    | .error e => ⟨w, some e⟩
    | .ok dir =>
      let cb : Arg ω := if isFunction encoding then encoding else .undefined
      let enc : JSString :=
        match encoding with
        | .str s => s
        | _ => ['u', 't', 'f', '8']
      let cb : Arg ω := if isFunction callback then callback else cb
      if !isFunction cb then
        ⟨w, some (.error ("Missing required parameter file").toList)⟩
      else
        match fs.ensureDir dir w with
        | (err, w1) =>
          if truthy err then call cb err .null w1
          else
            match fs.writeFile file data enc w1 with
            | (err, w2) => call cb err (.value file) w2

/-- An element of the `files` array of `writeFiles`: an object with its `path`,
`data` and `filename` properties, or a value that is not an object. -/
inductive FileEntry where
  | obj (path data filename : JSValue)
  | prim (v : JSValue)
  deriving DecidableEq, Repr

/-- The `files` argument of `writeFiles`: an array, or something else. -/
inductive WriteArg where
  | arr (files : List FileEntry)
  | other
  deriving DecidableEq, Repr

/-- `fileUtil.writeFiles(files, callback)`. -/
def writeFiles {ω : Type} (fs : Fs ω) (files : WriteArg) (callback : Arg ω) (w : ω) :
    Outcome ω :=
  match files with
  | .other =>
    call callback (.str ("Type array expected for parameter files").toList) .null w
  | .arr files =>
    let checked := each (fun file w =>
      match file with
      | .prim _ =>
        call callback (.str ("Type object expected in files Array").toList) .null w
      | .obj path data _ =>
        if !truthy path then
          call callback
            (.str ("Malformed file object in files array. Expected key path").toList) .null w
        else if !truthy data then
          call callback
            (.str ("Malformed file object in files array. Expected key data").toList) .null w
        else ⟨w, none⟩) files w
    match checked with
    | ⟨w, some e⟩ => ⟨w, some e⟩
    | ⟨w, none⟩ =>
      mapLimit (fun file cb w =>
        let written : Callback ω := fun err file w =>
          if truthy err then cb err .null w else cb .null file w
        match file with
        | .prim .undefined => ⟨w, some .typeError⟩
        | .prim .null => ⟨w, some .typeError⟩
        | .prim (.str _) => writeFile fs .undefined .undefined (.fn written) .undefined w
        | .obj path data filename =>
          if truthy filename then
            match getDirectory path none with
            | .error e => ⟨w, some e⟩
            | .ok dir =>
              match join [.str dir, filename] with
              | .error e => ⟨w, some e⟩
              | .ok joined => writeFile fs (.str joined) data (.fn written) .undefined w
          else writeFile fs path data (.fn written) .undefined w)
        (fun err results w =>
          if truthy err then call callback err .null w
          else call callback .null (.array (flatten results)) w)
        files [] w

/-- The `files` argument of `readFiles`: a string, an array of paths, or
something else. -/
inductive ReadArg where
  | str (s : JSString)
  | arr (files : List JSString)
  | other
  deriving DecidableEq, Repr

/-- `fileUtil.readFiles(files, encoding, callback)`; `rest` holds the arguments
passed after `files`, so that `arguments.length` is `rest.length + 1`. -/
def readFiles {ω : Type} (fs : Fs ω) (files : ReadArg) (rest : List (Arg ω)) (w : ω) :
    Outcome ω :=
  let encoding : Arg ω := rest.getD 0 .undefined
  let callback : Arg ω := rest.getD 1 .undefined
  let argc := rest.length + 1
  if argc = 2 ∧ !isFunction encoding then
    call callback (.str ("Function expected as 2nd argument").toList) .null w
  else if argc = 3 ∧ !isFunction callback then
    call callback (.str ("Function expected as 2nd argument").toList) .null w
  else
    let callbackFinal : Arg ω :=
      if argc = 2 then encoding else if argc = 3 then callback else .undefined
    let enc : Option JSString :=
      if argc = 3 then (match encoding with | .str s => some s | _ => none) else none
    let run (queue : List JSString) : Outcome ω :=
      mapLimit (fun file cb w =>
        if !fs.«exists» file w then
          cb (.str (("File does not exist ").toList ++ file)) .null w
        else
          match fs.readFile file enc w with
          | (err, data) => cb err (.value data) w)
        (fun err results w =>
          if truthy err then call callbackFinal err .null w
          else call callbackFinal .null (.array (flatten results)) w)
        queue [] w
    match files with
    | .str s => run [s]
    | .arr queue => run queue
    | .other => call callback (.str ("String or Array expected for files").toList) .null w

/-- A file system in memory: a map from paths to contents, the directories
`ensureDir` was asked for, and the calls the callback under observation got. -/
structure MemWorld where
  files : List (JSString × JSString)
  dirs : List JSString
  calls : List (JSValue × JSResult)

/-- `fs-extra` on `MemWorld`, the map from paths to contents that the claim on
`readFiles` is stated over: a path exists when the map has it and reading gives
its content. `ensureDir` and `writeFile` only record what they are asked for:
they always succeed and do not interpret the encoding, so this instance says
nothing on whether a write succeeds on a real disk. -/
def memFs : Fs MemWorld where
  «exists» := fun file w => (w.files.lookup file).isSome
  readFile := fun file _ w =>
    match w.files.lookup file with
    | some content => (.null, .str content)
    | none => (.str ("ENOENT").toList, .undefined)
  ensureDir := fun dir w => (.null, { w with dirs := w.dirs ++ [dir] })
  writeFile := fun file data _ w =>
    match file, data with
    | .str f, .str d => (.null, { w with files := (f, d) :: w.files })
    | _, _ => (.str ("ERR_INVALID_ARG_TYPE").toList, w)

/-- A callback that records the arguments it is called with. -/
def record : Callback MemWorld :=
  fun err result w => ⟨{ w with calls := w.calls ++ [(err, result)] }, none⟩

/-! ## Auxiliary definitions for the proofs -/

/-- Prepends `a` to the first list of `l`. -/
def prependHead (a : JSString) : List JSString → List JSString
  | [] => [a]
  | f :: fs => (a ++ f) :: fs

/-- The fragments of `s` between `/` characters, empty ones included. -/
def frags : JSString → List JSString
  | [] => [[]]
  | c :: cs => if c = '/' then [] :: frags cs else prependHead [c] (frags cs)

/-- What `normalizeString` does with the segment `seg` that a separator closes:
`stack` holds the segments kept so far, the last one first. -/
def pushSeg (allow : Bool) (stack : List JSString) (seg : JSString) : List JSString :=
  if seg = [] ∨ seg = ['.'] then stack
  else if seg = ['.', '.'] then
    match stack with
    | [] => if allow then [['.', '.']] else []
    | top :: rest =>
      if top = ['.', '.'] then (if allow then ['.', '.'] :: top :: rest else top :: rest)
      else rest
  else seg :: stack

/-- The segments of `stack` (last one first) joined by `/`. -/
def joinRev : List JSString → JSString
  | [] => []
  | [s] => s
  | s :: t :: rest => joinRev (t :: rest) ++ '/' :: s

/-- Length of the segment on top of the stack. -/
def topLen : List JSString → Int
  | [] => 0
  | t :: _ => t.length

/-- The value of `dots` after reading the characters `cur` of a segment. -/
def dotsOf (cur : JSString) : Int :=
  if cur.all (fun c => c = '.') then cur.length else -1

/-- The concrete loop state that stands for the kept segments `stack` and the
characters `cur` read since position `k`. -/
def repState (k : Nat) (stack : List JSString) (cur : JSString) (code : Char) : NormState :=
  { res := joinRev stack, lastSegmentLength := topLen stack, lastSlash := (k : Int) - 1,
    dots := dotsOf cur, code := code }

/-- Every kept segment is non-empty and has no separator. -/
def StackOK (stack : List JSString) : Prop :=
  ∀ s ∈ stack, s ≠ [] ∧ '/' ∉ s

/-- Character-level view of the loop of `normalizeString`: `cur` is the segment
being read, `rest` the characters still to come. -/
def absLoop (allow : Bool) : List JSString → JSString → JSString → List JSString
  | stack, cur, [] => pushSeg allow stack cur
  | stack, cur, c :: cs =>
    if c = '/' then absLoop allow (pushSeg allow stack cur) [] cs
    else absLoop allow stack (cur ++ [c]) cs

/-- The segments `normalizeString` keeps (last one first), computed from the
fragments of the path: the `normalizeArray` of older Node.js releases. -/
def normalizeSegs (allow : Bool) (path : JSString) : List JSString :=
  (frags path).foldl (pushSeg allow) []

/-- A segment that `normalizeString` keeps as it is. -/
def Normal (s : JSString) : Prop :=
  s ≠ [] ∧ s ≠ ['.'] ∧ s ≠ ['.', '.'] ∧ '/' ∉ s

/-- The stacks `normalizeString` can hold: kept segments above `k` leading `..`,
which only a relative path has. -/
def Reduced (allow : Bool) (stack : List JSString) : Prop :=
  ∃ (ns : List JSString) (k : Nat), stack = ns ++ List.replicate k ['.', '.'] ∧
    (∀ s ∈ ns, Normal s) ∧ (allow = false → k = 0)

/-- The path starts with a separator. -/
def isAbs (p : JSString) : Bool := decide (p.head? = some '/')

/-- The path ends with a separator. -/
def hasTrail (p : JSString) : Bool := decide (p.getLast? = some '/')

/-- The string `normalize` builds from the kept segments `R` (last one first). -/
def assemble (abs trail : Bool) (R : List JSString) : JSString :=
  if R = [] then (if abs then ['/'] else if trail then ['.', '/'] else ['.'])
  else (if abs then ['/'] else []) ++ joinRev R ++ (if trail then ['/'] else [])

/-- The non-empty fragments of the normalized path: what `splitPath` returns. -/
def segments (p : JSString) : List JSString :=
  (frags (normalizeStr p)).filter fun part => part.length ≠ 0

/-- The string `getDirectory` accumulates: `/`, then each segment followed by `/`. -/
def dirString (segs : List JSString) : JSString :=
  '/' :: (segs.map fun s => s ++ ['/']).flatten

/-- The segments `getDirectory` keeps: all of them, or all but a last one with a dot. -/
def keptSegs (parts : List JSString) : List JSString :=
  match parts[parts.length - 1]? with
  | some last => if indexOf last '.' ≠ -1 then parts.dropLast else parts
  | none => parts

/-- The value of `getDirectory` as a function of the segments of the path. -/
def dirOfSegs (parts : List JSString) : JSString :=
  if parts.length = 0 then ['/']
  else if parts.length = 1 ∧ (parts[0]?.map fun q => indexOf q '.') ≠ some (-1) then ['/']
  else normalizeStr (dirString (keptSegs parts))

/-- The segments of the result of `getDirectory`. -/
def dirSegs (parts : List JSString) : List JSString :=
  if parts.length = 1 ∧ (parts[0]?.map fun q => indexOf q '.') ≠ some (-1) then []
  else (keptSegs parts).filter fun s => s ≠ ['.', '.']

/-- A small instance of the `mime-db` table, to evaluate `getFileObject` on
concrete paths. -/
def sampleDb : MimeDb :=
  { types := fun ext =>
      if ext = ['t', 'x', 't'] then some ['t', 'e', 'x', 't', '/', 'p', 'l', 'a', 'i', 'n'] else none
    toLowerCase := fun s => s.map Char.toLower }

/-- Reference definition of `getDirectory` on the segment list `s` of the path,
in the words of the specification: `/` when `s` is empty or a single segment
with a `.`; otherwise `/` followed by the kept segments each followed by `/`,
the kept segments being `s` without its last element when that has a `.`. -/
def getDirectoryRef (s : List JSString) : JSString :=
  match s.getLast? with
  | none => ['/']
  | some last =>
    if s.length = 1 ∧ '.' ∈ last then ['/']
    else '/' :: ((if '.' ∈ last then s.dropLast else s).map fun seg => seg ++ ['/']).flatten

/-- What the loop of `extname` knows after reading the characters `sfx` of the
last segment, right to left: the position of the last `.` within `sfx`, if any,
and the value of `preDotState`. -/
def extAbs : JSString → Option Nat × Int
  | [] => (none, 0)
  | c :: s =>
    match extAbs s with
    | (none, pds) => if c = '.' then (some 0, pds) else (none, pds)
    | (some k, _) => if c = '.' then (some (k + 1), 1) else (some (k + 1), -1)

/-- The loop state of `extname` that stands for the characters `sfx` read so far,
`e` being the position after the last character of the segment. -/
def extStateOf (e : Nat) (sfx : JSString) : ExtState :=
  { startDot := match (extAbs sfx).1 with
      | none => -1
      | some k => ((e - sfx.length + k : Nat) : Int)
    startPart := 0
    «end» := if sfx = [] then -1 else (e : Int)
    matchedSlash := decide (sfx = [])
    preDotState := (extAbs sfx).2 }

/-- The value of `extname` as a function of the last segment of the path. -/
def extOfSeg (seg : JSString) : JSString :=
  match extAbs seg with
  | (none, _) => []
  | (some k, pds) =>
    if pds = 0 ∨ (pds = 1 ∧ k + 1 = seg.length ∧ k = 1) then [] else seg.drop k

/-- The content `readFile` gives for a path of the map. -/
def contentOf (w : MemWorld) (p : JSString) : JSValue :=
  .str ((w.files.lookup p).getD [])

/-- A map with the two files `/a` and `/b`, to evaluate the helpers on. -/
def sampleWorld : MemWorld :=
  ⟨[(['/', 'a'], ['A']), (['/', 'b'], ['B'])], [], []⟩

/-! ## Theorems -/

/-! ### Fragments of a string and `split` -/

theorem frags_ne_nil (s : JSString) : frags s ≠ [] := by
  cases s with
  | nil => simp [frags]
  | cons c cs =>
    unfold frags
    split
    · simp
    · cases frags cs <;> simp [prependHead]

theorem prependHead_prependHead (a b : JSString) (l : List JSString) :
    prependHead a (prependHead b l) = prependHead (a ++ b) l := by
  cases l <;> simp [prependHead]

theorem prependHead_nil (l : List JSString) (h : l ≠ []) : prependHead [] l = l := by
  cases l with
  | nil => exact absurd rfl h
  | cons f fs => simp [prependHead]

theorem splitGo_slash (s cur : JSString) :
    splitGo ['/'] 0 s cur = prependHead cur.reverse (frags s) := by
  induction s generalizing cur with
  | nil => simp [splitGo, frags, prependHead]
  | cons c cs ih =>
    by_cases hc : c = '/'
    · subst hc
      have : splitGo ['/'] 0 ('/' :: cs) cur = cur.reverse :: splitGo ['/'] 0 cs [] := by
        simp [splitGo, List.isPrefixOf]
      rw [this, ih, List.reverse_nil, prependHead_nil _ (frags_ne_nil cs)]
      simp [frags, prependHead]
    · have : splitGo ['/'] 0 (c :: cs) cur = splitGo ['/'] 0 cs (c :: cur) := by
        simp [splitGo, List.isPrefixOf, hc]
        intro h; exact absurd h.symm hc
      rw [this, ih]
      simp [frags, hc, prependHead_prependHead]

theorem split_slash (s : JSString) : split s ['/'] = frags s := by
  simp [split, splitGo_slash, prependHead_nil _ (frags_ne_nil s)]

theorem frags_of_not_mem {s : JSString} (h : '/' ∉ s) : frags s = [s] := by
  induction s with
  | nil => rfl
  | cons c cs ih =>
    simp at h
    have hc : c ≠ '/' := fun e => h.1 e.symm
    simp [frags, hc, ih h.2, prependHead]

theorem frags_append_slash (a b : JSString) :
    frags (a ++ '/' :: b) = frags a ++ frags b := by
  induction a with
  | nil => simp [frags]
  | cons c cs ih =>
    by_cases hc : c = '/'
    · simp [frags, hc, ih]
    · have e1 : frags (c :: cs ++ '/' :: b) = prependHead [c] (frags (cs ++ '/' :: b)) := by
        simp [frags, hc]
      have e2 : frags (c :: cs) = prependHead [c] (frags cs) := by simp [frags, hc]
      rw [e1, e2, ih]
      cases h : frags cs with
      | nil => exact absurd h (frags_ne_nil cs)
      | cons f fs => simp [prependHead]

theorem not_mem_of_mem_frags {s f : JSString} (h : f ∈ frags s) : '/' ∉ f := by
  induction s generalizing f with
  | nil => simp [frags] at h; simp [h]
  | cons c cs ih =>
    by_cases hc : c = '/'
    · simp [frags, hc] at h
      rcases h with h | h
      · simp [h]
      · exact ih h
    · simp only [frags, hc, if_false] at h
      cases hf : frags cs with
      | nil => exact absurd hf (frags_ne_nil cs)
      | cons g gs =>
        rw [hf] at h ih
        simp [prependHead] at h
        rcases h with h | h
        · subst h
          have := ih (List.mem_cons_self _ _)
          simp
          exact ⟨fun e => hc e.symm, this⟩
        · exact ih (List.mem_cons_of_mem _ h)

/-! ### The loop of `normalizeString` against the segment model -/

theorem dotsOf_nil : dotsOf [] = 0 := by simp [dotsOf]

theorem dotsOf_nonneg_or (cur : JSString) : dotsOf cur = -1 ∨ dotsOf cur = cur.length := by
  unfold dotsOf; split <;> simp

theorem dotsOf_snoc (cur : JSString) (c : Char) :
    dotsOf (cur ++ [c]) = if c = '.' ∧ dotsOf cur ≠ -1 then dotsOf cur + 1 else -1 := by
  unfold dotsOf
  by_cases hc : c = '.'
  · by_cases ha : cur.all (fun c => c = '.') = true
    · have : (cur ++ [c]).all (fun c => c = '.') = true := by
        simp only [List.all_append, ha, Bool.true_and]; simp [hc]
      simp only [this, ha, if_true]
      have h1 : ((cur.length : Int) ≠ -1) := by omega
      simp [hc, h1]
    · have : ¬ (cur ++ [c]).all (fun c => c = '.') = true := by
        simp only [List.all_append, Bool.and_eq_true]; exact fun h => ha h.1
      simp [this, ha]
  · have : ¬ (cur ++ [c]).all (fun c => c = '.') = true := by
      simp only [List.all_append, Bool.and_eq_true]
      intro h; simp [hc] at h
    simp [this, hc]

theorem dotsOf_eq_one (cur : JSString) : dotsOf cur = 1 ↔ cur = ['.'] := by
  constructor
  · intro h
    unfold dotsOf at h
    split at h
    · rename_i ha
      match cur, ha, h with
      | [c], ha, _ => simp at ha; simp [ha]
      | [], _, h => simp at h
      | _ :: _ :: _, _, h => simp at h; omega
    · omega
  · rintro rfl; simp [dotsOf]

theorem dotsOf_eq_two (cur : JSString) : dotsOf cur = 2 ↔ cur = ['.', '.'] := by
  constructor
  · intro h
    unfold dotsOf at h
    split at h
    · rename_i ha
      match cur, ha, h with
      | [c, d], ha, _ => simp at ha; simp [ha]
      | [], _, h => simp at h
      | [_], _, h => simp at h
      | _ :: _ :: _ :: _, _, h => simp at h; omega
    · omega
  · rintro rfl; simp [dotsOf]

theorem joinRev_cons_cons (s t : JSString) (rest : List JSString) :
    joinRev (s :: t :: rest) = joinRev (t :: rest) ++ '/' :: s := rfl

theorem joinRev_eq_nil {stack : List JSString} (h : StackOK stack) :
    joinRev stack = [] ↔ stack = [] := by
  constructor
  · intro e
    match stack, h, e with
    | [], _, _ => rfl
    | [s], h, e => exact absurd e (h s (by simp)).1
    | s :: t :: rest, _, e => simp [joinRev] at e
  · rintro rfl; rfl

theorem joinRev_suffix (top : JSString) (rest : List JSString) :
    ∃ pre, joinRev (top :: rest) = pre ++ top := by
  cases rest with
  | nil => exact ⟨[], rfl⟩
  | cons t r => exact ⟨joinRev (t :: r) ++ ['/'], by simp [joinRev]⟩

theorem lastIndexOf_not_mem {s : JSString} {c : Char} (h : c ∉ s) : lastIndexOf s c = -1 := by
  simp [lastIndexOf, h]

theorem lastIndexOf_append (a s : JSString) (c : Char) (h : c ∉ s) :
    lastIndexOf (a ++ c :: s) c = a.length := by
  have hm : c ∈ a ++ c :: s := by simp
  have hr : c ∉ s.reverse := by simpa using h
  simp only [lastIndexOf, hm, if_true, List.reverse_append, List.reverse_cons, List.append_assoc,
    List.singleton_append]
  rw [List.indexOf_append_of_not_mem hr]
  simp

theorem not_mem_joinRev_single {s : JSString} (h : StackOK [s]) : '/' ∉ joinRev [s] :=
  (h s (by simp)).2

theorem slice_zero_append (a b : JSString) : slice (a ++ b) 0 (a.length : Int) = a := by
  simp [slice]

theorem slice_mid (a b c : JSString) :
    slice (a ++ b ++ c) (a.length : Int) ((a.length + b.length : Nat) : Int) = b := by
  have : ((a.length + b.length : Nat) : Int).toNat - a.length = b.length := by
    rw [Int.toNat_ofNat]; omega
  simp only [slice, Int.toNat_ofNat, this]
  simp

theorem body_char (path : JSString) (allow : Bool) (k : Nat) (stack : List JSString)
    (cur : JSString) (code c : Char)
    (hi : k + cur.length < path.length) (hc : path.getD (k + cur.length) '/' = c)
    (hne : c ≠ '/') :
    normalizeStringBody path allow (k + cur.length) (repState k stack cur code)
      = some (repState k stack (cur ++ [c]) c) := by
  unfold normalizeStringBody
  simp only [hi, if_true, hc, hne, if_false, repState, dotsOf_snoc]
  by_cases h : c = '.' ∧ dotsOf cur ≠ -1
  · simp [h]
  · simp [h]

theorem top_check {stack : List JSString} :
    ((joinRev stack).length < 2 ∨ topLen stack ≠ 2 ∨
      (joinRev stack)[(joinRev stack).length - 1]? ≠ some '.' ∨
      (joinRev stack)[(joinRev stack).length - 2]? ≠ some '.') ↔
    stack.head? ≠ some ['.', '.'] := by
  cases stack with
  | nil => simp [joinRev]
  | cons top rest =>
    obtain ⟨pre, hpre⟩ := joinRev_suffix top rest
    rw [hpre]
    simp only [topLen, List.head?_cons, ne_eq, Option.some.injEq]
    match top with
    | [] => simp
    | [x] => simp
    | [x, y] =>
      have e1 : (pre ++ [x, y]).length - 1 = pre.length + 1 := by simp
      have e2 : (pre ++ [x, y]).length - 2 = pre.length := by simp
      rw [e1, e2]
      have g1 : (pre ++ [x, y])[pre.length + 1]? = some y := by
        rw [List.getElem?_append_right (by omega)]; simp
      have g2 : (pre ++ [x, y])[pre.length]? = some x := by
        rw [List.getElem?_append_right (by omega)]; simp
      rw [g1, g2]
      simp
      tauto
    | _ :: _ :: _ :: tl =>
      have : ¬ ((tl.length : Int) + 1 + 1 + 1 = 2) := by omega
      simp [this]

theorem pop_single {s : JSString} (h : StackOK [s]) : lastIndexOf (joinRev [s]) '/' = -1 :=
  lastIndexOf_not_mem (h s (by simp)).2

theorem seg_len_top {t : JSString} {rest : List JSString} (h : StackOK (t :: rest)) :
    ((joinRev (t :: rest)).length : Int) - 1 - lastIndexOf (joinRev (t :: rest)) '/' = t.length := by
  have ht := (h t (by simp)).2
  cases rest with
  | nil => simp [joinRev, lastIndexOf_not_mem ht]
  | cons u r =>
    rw [joinRev_cons_cons, lastIndexOf_append _ _ _ ht]
    simp
    omega

theorem pop_cons_cons {s t : JSString} {rest : List JSString} (h : StackOK (s :: t :: rest)) :
    lastIndexOf (joinRev (s :: t :: rest)) '/' = (joinRev (t :: rest)).length ∧
    slice (joinRev (s :: t :: rest)) 0 ((joinRev (t :: rest)).length : Int) = joinRev (t :: rest) := by
  have hs := (h s (by simp)).2
  rw [joinRev_cons_cons, lastIndexOf_append _ _ _ hs]
  exact ⟨rfl, slice_zero_append _ _⟩

theorem length_joinRev_cons_cons {s t : JSString} {rest : List JSString}
    (h : StackOK (s :: t :: rest)) : 2 < (joinRev (s :: t :: rest)).length := by
  have hs := (h s (by simp)).1
  have ht : StackOK (t :: rest) := fun x hx => h x (by simp at hx ⊢; tauto)
  have h1 : joinRev (t :: rest) ≠ [] := by
    intro e; have := (joinRev_eq_nil ht).1 e; simp at this
  have h2 : 0 < (joinRev (t :: rest)).length := List.length_pos.2 h1
  have h3 : 0 < s.length := List.length_pos.2 hs
  rw [joinRev_cons_cons]; simp; omega

theorem stackOK_tail {s : JSString} {rest : List JSString} (h : StackOK (s :: rest)) :
    StackOK rest := fun x hx => h x (List.mem_cons_of_mem _ hx)

theorem length_joinRev_pos {s : JSString} {rest : List JSString} (h : StackOK (s :: rest)) :
    0 < (joinRev (s :: rest)).length := by
  apply List.length_pos.2
  intro e
  have := (joinRev_eq_nil h).1 e
  simp at this

theorem body_slash (path : JSString) (allow : Bool) (k i : Nat) (stack : List JSString)
    (cur : JSString) (code : Char) (hi : i = k + cur.length)
    (hf : (i < path.length ∧ path.getD i '/' = '/') ∨ (¬ i < path.length ∧ code ≠ '/'))
    (hs : slice path k i = cur) (hok : StackOK stack) :
    normalizeStringBody path allow i (repState k stack cur code)
      = some (repState (i + 1) (pushSeg allow stack cur) [] '/') := by
  have hfetch : (if i < path.length then some (path.getD i '/')
      else if code = '/' then none else some '/') = some '/' := by
    rcases hf with ⟨h1, h2⟩ | ⟨h1, h2⟩
    · rw [if_pos h1, h2]
    · rw [if_neg h1, if_neg h2]
  simp only [normalizeStringBody, repState, hfetch, if_true]
  have hls : ((i + 1 : Nat) : Int) - 1 = (i : Int) := by push_cast; ring
  have hk : (k : Int) - 1 + 1 = (k : Int) := by ring
  have hlen : (i : Int) - ((k : Int) - 1) - 1 = cur.length := by rw [hi]; push_cast; ring
  rw [hls, dotsOf_nil, hk, hs, hlen]
  by_cases hc0 : cur = []
  · have : (k : Int) - 1 = (i : Int) - 1 := by rw [hi, hc0]; simp
    rw [if_pos (Or.inl this)]
    simp [pushSeg, hc0]
  · by_cases hc1 : cur = ['.']
    · have : dotsOf cur = 1 := (dotsOf_eq_one cur).2 hc1
      rw [if_pos (Or.inr this)]
      simp [pushSeg, hc1]
    · have hn1 : ¬ ((k : Int) - 1 = (i : Int) - 1 ∨ dotsOf cur = 1) := by
        have : 0 < cur.length := List.length_pos.2 hc0
        rw [dotsOf_eq_one]
        intro h
        rcases h with h | h
        · omega
        · exact hc1 h
      rw [if_neg hn1]
      by_cases hc2 : cur = ['.', '.']
      · have hd2 : dotsOf cur = 2 := (dotsOf_eq_two cur).2 hc2
        rw [if_pos hd2]
        simp only [top_check]
        match stack, hok with
        | [], _ =>
          cases allow <;> simp [joinRev, pushSeg, hc2, topLen]
        | [s], hok =>
          by_cases hs2 : s = ['.', '.']
          · cases allow <;> simp [joinRev, pushSeg, hc2, topLen, hs2]
          · have hpop := pop_single hok
            have hpos := length_joinRev_pos hok
            have hne : (joinRev [s]).length ≠ 0 := by omega
            simp only [List.head?_cons, ne_eq, Option.some.injEq, hs2, not_false_eq_true, if_true,
              hpop, hne]
            simp [pushSeg, hc2, hs2, joinRev, topLen]
        | s :: t :: rest, hok =>
          by_cases hs2 : s = ['.', '.']
          · have hpos := length_joinRev_pos hok
            cases allow <;> simp [pushSeg, hc2, topLen, hs2, joinRev_cons_cons]
          · have hpop := pop_cons_cons hok
            have hgt := length_joinRev_cons_cons hok
            have hne : ¬ (((joinRev (t :: rest)).length : Int) = -1) := by omega
            have hseg := seg_len_top (stackOK_tail hok)
            simp only [List.head?_cons, ne_eq, Option.some.injEq, hs2, not_false_eq_true, if_true,
              hpop.1, hpop.2, hne, if_false, gt_iff_lt, hgt, hseg]
            simp [pushSeg, hc2, hs2, topLen]
      · have hd2 : ¬ dotsOf cur = 2 := by rw [dotsOf_eq_two]; exact hc2
        rw [if_neg hd2]
        have hp : pushSeg allow stack cur = cur :: stack := by simp [pushSeg, hc0, hc1, hc2]
        rw [hp]
        cases stack with
        | nil => simp [joinRev, topLen]
        | cons t rest =>
          have := length_joinRev_pos hok
          simp [this, joinRev_cons_cons, topLen]

theorem pushSeg_ok {allow : Bool} {stack : List JSString} {seg : JSString}
    (hok : StackOK stack) (hseg : '/' ∉ seg) : StackOK (pushSeg allow stack seg) := by
  unfold pushSeg
  split
  · exact hok
  · rename_i h0
    split
    · split
      · cases allow
        · simpa using hok
        · intro x hx; simp at hx; subst hx; simp
      · rename_i top rest
        split
        · cases allow
          · simpa using hok
          · intro x hx
            simp only [if_true, List.mem_cons] at hx
            rcases hx with rfl | hx
            · simp
            · exact hok x (by simpa using hx)
        · exact stackOK_tail hok
    · intro x hx
      simp only [List.mem_cons] at hx
      rcases hx with rfl | hx
      · exact ⟨fun e => h0 (Or.inl e), hseg⟩
      · exact hok x hx

theorem body_break (path : JSString) (allow : Bool) (i : Nat) (st : NormState)
    (hi : ¬ i < path.length) (hc : st.code = '/') :
    normalizeStringBody path allow i st = none := by
  simp [normalizeStringBody, hi, hc]

theorem loop_some {path : JSString} {allow : Bool} {n i : Nat} {st st' : NormState}
    (h : normalizeStringBody path allow i st = some st') :
    normalizeStringLoop path allow (n + 1) i st = normalizeStringLoop path allow n (i + 1) st' := by
  rw [normalizeStringLoop, h]

theorem loop_none {path : JSString} {allow : Bool} {n i : Nat} {st : NormState}
    (h : normalizeStringBody path allow i st = none) :
    normalizeStringLoop path allow (n + 1) i st = st.res := by
  rw [normalizeStringLoop, h]

theorem slice_cur (pre0 cur rest : JSString) :
    slice (pre0 ++ cur ++ rest) (pre0.length : Int) ((pre0.length + cur.length : Nat) : Int) = cur :=
  slice_mid pre0 cur rest

theorem loop_eq (path : JSString) (allow : Bool) (rest : JSString) :
    ∀ (pre0 cur : JSString) (stack : List JSString) (code : Char),
      path = pre0 ++ cur ++ rest → StackOK stack → '/' ∉ cur → (code = '/' → cur = []) →
      normalizeStringLoop path allow (rest.length + 1) (pre0.length + cur.length)
        (repState pre0.length stack cur code) = joinRev (absLoop allow stack cur rest) := by
  induction rest with
  | nil =>
    intro pre0 cur stack code hpath hok hcur hcode
    have hlen : ¬ (pre0.length + cur.length < path.length) := by rw [hpath]; simp
    by_cases hc : code = '/'
    · have hb := body_break path allow (pre0.length + cur.length) (repState pre0.length stack cur code)
        hlen (by simp [repState, hc])
      rw [List.length_nil, Nat.zero_add, loop_none hb]
      simp [absLoop, hcode hc, pushSeg, repState]
    · have hb := body_slash path allow pre0.length (pre0.length + cur.length) stack cur code rfl
        (Or.inr ⟨hlen, hc⟩) (by rw [hpath]; exact slice_cur pre0 cur []) hok
      rw [List.length_nil, Nat.zero_add, loop_some hb]
      simp [normalizeStringLoop, absLoop, repState]
  | cons c cs ih =>
    intro pre0 cur stack code hpath hok hcur hcode
    have hlen : pre0.length + cur.length < path.length := by rw [hpath]; simp
    have hget : path.getD (pre0.length + cur.length) '/' = c := by
      rw [hpath, List.getD_eq_getElem?_getD]
      rw [show pre0.length + cur.length = (pre0 ++ cur).length by simp]
      rw [List.getElem?_append_right (le_refl _)]
      simp
    by_cases hc : c = '/'
    · have hb := body_slash path allow pre0.length (pre0.length + cur.length) stack cur code rfl
        (Or.inl ⟨hlen, by rw [hget, hc]⟩) (by rw [hpath]; exact slice_cur pre0 cur _) hok
      have hih := ih (pre0 ++ cur ++ ['/']) [] (pushSeg allow stack cur) '/'
        (by rw [hpath, hc]; simp) (pushSeg_ok hok hcur) (by simp) (fun _ => rfl)
      rw [List.length_cons, loop_some hb]
      simp only [List.length_append, List.length_singleton, List.length_nil, Nat.add_zero] at hih
      rw [hih]
      simp [absLoop, hc]
    · have hb := body_char path allow pre0.length stack cur code c hlen hget hc
      have hih := ih pre0 (cur ++ [c]) stack c (by rw [hpath]; simp) hok
        (by simp; exact ⟨hcur, fun e => hc e.symm⟩) (fun e => absurd e hc)
      rw [List.length_cons, loop_some hb]
      simp only [List.length_append, List.length_singleton] at hih
      rw [← Nat.add_assoc] at hih
      rw [hih]
      simp [absLoop, hc]

theorem absLoop_eq (allow : Bool) (rest : JSString) :
    ∀ (stack : List JSString) (cur : JSString),
      absLoop allow stack cur rest = (prependHead cur (frags rest)).foldl (pushSeg allow) stack := by
  induction rest with
  | nil => intro stack cur; simp [absLoop, frags, prependHead]
  | cons c cs ih =>
    intro stack cur
    by_cases hc : c = '/'
    · simp only [absLoop, hc, if_true, frags, prependHead, List.append_nil, List.foldl_cons]
      rw [ih, prependHead_nil _ (frags_ne_nil cs)]
    · simp only [absLoop, hc, if_false, frags]
      rw [ih, prependHead_prependHead]

/-- `normalizeString` keeps exactly the segments of the segment-level model. -/
theorem normalizeString_eq (path : JSString) (allow : Bool) :
    normalizeString path allow = joinRev (normalizeSegs allow path) := by
  have h := loop_eq path allow path [] [] [] (Char.ofNat 0) (by simp)
    (by intro s hs; simp at hs) (by simp) (by decide)
  have e : repState ([] : JSString).length [] [] (Char.ofNat 0) =
      { res := [], lastSegmentLength := 0, lastSlash := -1, dots := 0, code := Char.ofNat 0 } := by
    simp [repState, joinRev, topLen, dotsOf]
  rw [e] at h
  simp only [List.length_nil, Nat.add_zero] at h
  unfold normalizeString normalizeSegs
  rw [h, absLoop_eq]
  simp [prependHead_nil _ (frags_ne_nil path)]

/-! ### Shape of the kept segments -/

theorem pushSeg_normal {allow : Bool} {stack : List JSString} {s : JSString} (h : Normal s) :
    pushSeg allow stack s = s :: stack := by
  simp [pushSeg, h.1, h.2.1, h.2.2.1]

theorem foldl_pushSeg_normals (allow : Bool) (ms : List JSString) :
    ∀ stack : List JSString, (∀ s ∈ ms, Normal s) →
      ms.foldl (pushSeg allow) stack = ms.reverse ++ stack := by
  induction ms with
  | nil => intro stack _; rfl
  | cons m ms ih =>
    intro stack h
    rw [List.foldl_cons, pushSeg_normal (h m (by simp)), ih _ (fun s hs => h s (by simp [hs]))]
    simp

theorem foldl_pushSeg_dotdots (allow : Bool) (k : Nat) :
    (List.replicate k ['.', '.']).foldl (pushSeg allow) [] =
      if allow then List.replicate k ['.', '.'] else [] := by
  induction k with
  | zero => simp
  | succ k ih =>
    rw [List.replicate_succ', List.foldl_append, ih]
    cases allow
    · simp [pushSeg]
    · cases k with
      | zero => simp [pushSeg]
      | succ j =>
        simp [pushSeg, List.replicate_succ]
        rw [← List.replicate_succ, List.replicate_succ']

theorem reduced_nil (allow : Bool) : Reduced allow [] :=
  ⟨[], 0, by simp, by simp, fun _ => rfl⟩

theorem pushSeg_reduced {allow : Bool} {stack : List JSString} {seg : JSString}
    (h : Reduced allow stack) (hseg : '/' ∉ seg) : Reduced allow (pushSeg allow stack seg) := by
  obtain ⟨ns, k, rfl, hns, hk⟩ := h
  by_cases h0 : seg = [] ∨ seg = ['.']
  · simp only [pushSeg, h0, if_true]; exact ⟨ns, k, rfl, hns, hk⟩
  · by_cases h2 : seg = ['.', '.']
    · subst h2
      cases ns with
      | nil =>
        cases k with
        | zero =>
          cases allow
          · simp [pushSeg]; exact reduced_nil _
          · exact ⟨[], 1, by simp [pushSeg], by simp, by simp⟩
        | succ j =>
          cases allow
          · simp at hk
          · exact ⟨[], j + 2, by simp [pushSeg, List.replicate_succ], by simp, by simp⟩
      | cons n ns' =>
        have hn : n ≠ ['.', '.'] := (hns n (by simp)).2.2.1
        exact ⟨ns', k, by simp [pushSeg, hn], fun s hs => hns s (by simp [hs]), hk⟩
    · have hN : Normal seg := ⟨fun e => h0 (Or.inl e), fun e => h0 (Or.inr e), h2, hseg⟩
      rw [pushSeg_normal hN]
      refine ⟨seg :: ns, k, by simp, ?_, hk⟩
      intro s hs
      simp only [List.mem_cons] at hs
      rcases hs with rfl | hs
      · exact hN
      · exact hns s hs

theorem foldl_pushSeg_reduced (allow : Bool) (fs : List JSString) :
    ∀ stack : List JSString, Reduced allow stack → (∀ f ∈ fs, '/' ∉ f) →
      Reduced allow (fs.foldl (pushSeg allow) stack) := by
  induction fs with
  | nil => intro stack h _; exact h
  | cons f fs ih =>
    intro stack h hf
    exact ih _ (pushSeg_reduced h (hf f (by simp))) (fun g hg => hf g (by simp [hg]))

theorem normalizeSegs_reduced (allow : Bool) (path : JSString) :
    Reduced allow (normalizeSegs allow path) :=
  foldl_pushSeg_reduced allow _ _ (reduced_nil _) (fun _ hf => not_mem_of_mem_frags hf)

theorem reduced_stackOK {allow : Bool} {stack : List JSString} (h : Reduced allow stack) :
    StackOK stack := by
  obtain ⟨ns, k, rfl, hns, _⟩ := h
  intro s hs
  simp only [List.mem_append, List.mem_replicate] at hs
  rcases hs with hs | ⟨_, rfl⟩
  · exact ⟨(hns s hs).1, (hns s hs).2.2.2⟩
  · simp

/-- Normalising the kept segments again, `..` allowed or not. -/
theorem foldl_pushSeg_reverse (allow : Bool) (ns : List JSString) (k : Nat)
    (hns : ∀ s ∈ ns, Normal s) :
    (ns ++ List.replicate k ['.', '.']).reverse.foldl (pushSeg allow) [] =
      ns ++ (if allow then List.replicate k ['.', '.'] else []) := by
  rw [List.reverse_append, List.foldl_append, List.reverse_replicate, foldl_pushSeg_dotdots,
    foldl_pushSeg_normals allow _ _ (fun s hs => hns s (by simpa using hs))]
  simp

theorem foldl_pushSeg_fixed {allow : Bool} {stack : List JSString} (h : Reduced allow stack) :
    stack.reverse.foldl (pushSeg allow) [] = stack := by
  obtain ⟨ns, k, rfl, hns, hk⟩ := h
  rw [foldl_pushSeg_reverse allow ns k hns]
  cases allow
  · simp [hk rfl]
  · simp

/-! ### Closed form of `path.normalize` -/

theorem normalizeStr_eq (p : JSString) (hp : p ≠ []) :
    normalizeStr p = assemble (isAbs p) (hasTrail p) (normalizeSegs (!isAbs p) p) := by
  have hlen : p.length ≠ 0 := by simpa using hp
  have key : ∀ a t : Bool, isAbs p = a → hasTrail p = t →
      normalizeStr p = assemble a t (normalizeSegs (!a) p) := by
    intro a t ha ht
    have hR := reduced_stackOK (normalizeSegs_reduced (!a) p)
    have hnil := joinRev_eq_nil hR
    have ea : (p[0]? = some '/') ↔ a = true := by
      rw [← ha]; simp [isAbs, List.head?_eq_getElem?]
    have et : (p[p.length - 1]? = some '/') ↔ t = true := by
      rw [← ht]; simp [hasTrail, List.getLast?_eq_getElem?]
    unfold normalizeStr assemble
    simp only [hlen, if_false, normalizeString_eq, List.length_eq_zero, ea, et]
    cases a <;> cases t <;> simp [hnil] <;> simp at hnil <;> simp [hnil]
  exact key _ _ rfl rfl

theorem frags_joinRev {R : List JSString} (h : StackOK R) (hne : R ≠ []) :
    frags (joinRev R) = R.reverse := by
  match R, h, hne with
  | [s], h, _ => simp [joinRev, frags_of_not_mem (h s (by simp)).2]
  | s :: t :: rest, h, _ =>
    rw [joinRev_cons_cons, frags_append_slash, frags_joinRev (stackOK_tail h) (by simp),
      frags_of_not_mem (h s (by simp)).2]
    simp

theorem frags_cons_slash (s : JSString) : frags ('/' :: s) = [] :: frags s := by
  simp [frags]

theorem frags_snoc_slash (s : JSString) : frags (s ++ ['/']) = frags s ++ [[]] := by
  rw [frags_append_slash]; rfl

/-- The fragments of an assembled path. -/
theorem frags_assemble (abs trail : Bool) {R : List JSString} (h : StackOK R) (hne : R ≠ []) :
    frags (assemble abs trail R) =
      (if abs then [[]] else []) ++ R.reverse ++ (if trail then [[]] else []) := by
  unfold assemble
  rw [if_neg hne]
  cases abs <;> cases trail <;>
    simp [frags_cons_slash, frags_snoc_slash, frags_joinRev h hne]

theorem head_joinRev {R : List JSString} (h : StackOK R) :
    (joinRev R).head? ≠ some '/' := by
  match R, h with
  | [], _ => simp [joinRev]
  | [s], h =>
    have := h s (by simp)
    cases s with
    | nil => simp [joinRev]
    | cons c cs =>
      simp [joinRev]
      intro e; subst e; simp at this
  | s :: t :: rest, h =>
    have ih := head_joinRev (stackOK_tail h)
    have hne : joinRev (t :: rest) ≠ [] := by
      intro e; have := (joinRev_eq_nil (stackOK_tail h)).1 e; simp at this
    rw [joinRev_cons_cons, List.head?_append_of_ne_nil _ hne]
    exact ih

theorem getLast_joinRev {R : List JSString} (h : StackOK R) :
    (joinRev R).getLast? ≠ some '/' := by
  cases R with
  | nil => simp [joinRev]
  | cons top rest =>
    obtain ⟨pre, hpre⟩ := joinRev_suffix top rest
    have ht := h top (by simp)
    rw [hpre, List.getLast?_append_of_ne_nil _ ht.1]
    intro e
    exact ht.2 (List.mem_of_getLast?_eq_some e)

theorem isAbs_assemble (abs trail : Bool) {R : List JSString} (h : StackOK R) :
    isAbs (assemble abs trail R) = abs := by
  unfold assemble isAbs
  by_cases hne : R = []
  · cases abs <;> cases trail <;> simp [hne]
  · have hj : joinRev R ≠ [] := fun e => hne ((joinRev_eq_nil h).1 e)
    have hh := head_joinRev h
    cases abs
    · simp only [if_neg hne, Bool.false_eq_true, if_false, List.nil_append,
        List.head?_append_of_ne_nil _ hj]
      simpa using hh
    · simp [hne]

theorem hasTrail_assemble (abs trail : Bool) {R : List JSString} (h : StackOK R)
    (hne : R ≠ []) : hasTrail (assemble abs trail R) = trail := by
  unfold assemble hasTrail
  have hj : joinRev R ≠ [] := fun e => hne ((joinRev_eq_nil h).1 e)
  have hh := getLast_joinRev h
  cases trail
  · simp only [if_neg hne, Bool.false_eq_true, if_false, List.append_nil,
      List.getLast?_append_of_ne_nil _ hj]
    simpa using hh
  · simp [hne]

theorem pushSeg_nil (allow : Bool) (stack : List JSString) : pushSeg allow stack [] = stack := by
  simp [pushSeg]

theorem assemble_ne_nil (abs trail : Bool) {R : List JSString} (h : StackOK R) :
    assemble abs trail R ≠ [] := by
  unfold assemble
  by_cases hne : R = []
  · cases abs <;> cases trail <;> simp [hne]
  · have hj : joinRev R ≠ [] := fun e => hne ((joinRev_eq_nil h).1 e)
    cases abs <;> cases trail <;> simp [hne, hj]

theorem normalizeSegs_assemble (allow abs trail : Bool) {R : List JSString} (h : StackOK R) :
    normalizeSegs allow (assemble abs trail R) = R.reverse.foldl (pushSeg allow) [] := by
  by_cases hne : R = []
  · subst hne
    cases abs <;> cases trail <;> simp [assemble, normalizeSegs, frags, prependHead, pushSeg]
  · unfold normalizeSegs
    rw [frags_assemble abs trail h hne]
    cases abs <;> cases trail <;> simp [List.foldl_append, pushSeg_nil]

theorem normalizeStr_nil : normalizeStr [] = ['.'] := by
  simp [normalizeStr]

theorem normalizeStr_ne_nil (p : JSString) : normalizeStr p ≠ [] := by
  by_cases hp : p = []
  · subst hp; simp [normalizeStr_nil]
  · rw [normalizeStr_eq p hp]
    exact assemble_ne_nil _ _ (reduced_stackOK (normalizeSegs_reduced _ p))

/-- `path.normalize` is idempotent. -/
theorem normalizeStr_idem (p : JSString) : normalizeStr (normalizeStr p) = normalizeStr p := by
  by_cases hp : p = []
  · subst hp
    rw [normalizeStr_nil, normalizeStr_eq _ (by simp)]
    simp [isAbs, hasTrail, normalizeSegs, frags, prependHead, pushSeg, assemble]
  · have hred := normalizeSegs_reduced (!isAbs p) p
    have hok := reduced_stackOK hred
    rw [normalizeStr_eq p hp]
    generalize hR : normalizeSegs (!isAbs p) p = R at hred hok
    rw [normalizeStr_eq _ (assemble_ne_nil _ _ hok), isAbs_assemble _ _ hok,
      normalizeSegs_assemble _ _ _ hok, foldl_pushSeg_fixed hred]
    by_cases hne : R = []
    · subst hne
      cases isAbs p <;> cases hasTrail p <;> simp [assemble, hasTrail]
    · rw [hasTrail_assemble _ _ hok hne]

/-! ### Closed forms of `splitPath`, `getDirectory` and `isDirectory` -/

theorem splitPath_str (p : JSString) (hp : p ≠ []) :
    splitPath (.str p) none = .ok (segments p) := by
  cases p with
  | nil => exact absurd rfl hp
  | cons c cs =>
    simp only [splitPath, normalize, delimiterOrSlash, split_slash, segments]
    rfl

theorem segments_normalizeStr (p : JSString) : segments (normalizeStr p) = segments p := by
  simp [segments, normalizeStr_idem]

theorem filter_stackOK {R : List JSString} (h : StackOK R) :
    R.filter (fun part => decide (part.length ≠ 0)) = R := by
  apply List.filter_eq_self.2
  intro s hs
  have := (h s hs).1
  simpa using this

theorem segments_eq (p : JSString) (hp : p ≠ []) :
    segments p =
      if normalizeSegs (!isAbs p) p = [] then (if isAbs p then [] else [['.']])
      else (normalizeSegs (!isAbs p) p).reverse := by
  have hok := reduced_stackOK (normalizeSegs_reduced (!isAbs p) p)
  unfold segments
  rw [normalizeStr_eq p hp]
  generalize normalizeSegs (!isAbs p) p = R at hok
  by_cases hne : R = []
  · subst hne
    cases isAbs p <;> cases hasTrail p <;> simp [assemble, frags, prependHead]
  · have hok' : StackOK R.reverse := fun s hs => hok s (by simpa using hs)
    rw [frags_assemble _ _ hok hne, if_neg hne]
    cases isAbs p <;> cases hasTrail p <;>
      simp [List.filter_append, filter_stackOK hok'] <;>
      exact fun a ha => (hok a ha).1

theorem foldl_dirString (parts : List JSString) (res : JSString) :
    parts.foldl (fun res part => res ++ (part ++ ['/'])) res =
      res ++ (parts.map fun s => s ++ ['/']).flatten := by
  induction parts generalizing res with
  | nil => simp
  | cons x xs ih => simp [ih]

theorem indexOf_ne_neg_one (s : JSString) (c : Char) : indexOf s c ≠ -1 ↔ c ∈ s := by
  unfold indexOf
  split
  · rename_i h; simp [h]
  · rename_i h; simp [h]

theorem indexOf_eq_neg_one (s : JSString) (c : Char) : indexOf s c = -1 ↔ c ∉ s := by
  rw [← indexOf_ne_neg_one]; simp

theorem frags_join_slash (ks : List JSString) (h : ∀ s ∈ ks, '/' ∉ s) :
    frags (ks.map fun s => s ++ ['/']).flatten = ks ++ [[]] := by
  induction ks with
  | nil => simp [frags]
  | cons k ks ih =>
    simp only [List.map_cons, List.flatten_cons, List.append_assoc, List.singleton_append]
    rw [frags_append_slash, frags_of_not_mem (h k (by simp)), ih (fun s hs => h s (by simp [hs]))]
    simp

theorem frags_dirString (ks : List JSString) (h : ∀ s ∈ ks, '/' ∉ s) :
    frags (dirString ks) = [] :: (ks ++ [[]]) := by
  rw [dirString, frags_cons_slash, frags_join_slash ks h]

theorem joinRev_snoc_slash {R : List JSString} (hne : R ≠ []) :
    joinRev R ++ ['/'] = (R.reverse.map fun s => s ++ ['/']).flatten := by
  match R, hne with
  | [s], _ => simp [joinRev]
  | s :: t :: rest, _ =>
    rw [joinRev_cons_cons, List.reverse_cons, List.map_append, List.flatten_append,
      ← joinRev_snoc_slash (R := t :: rest) (by simp)]
    simp

theorem assemble_true_true (ms : List JSString) :
    assemble true true ms.reverse = dirString ms := by
  unfold assemble dirString
  by_cases h : ms = []
  · subst h; simp
  · have h' : ms.reverse ≠ [] := by simpa using h
    rw [if_neg h']
    simp only [if_true, List.singleton_append, List.append_assoc, List.cons_append, List.nil_append]
    rw [joinRev_snoc_slash h', List.reverse_reverse]

theorem hasTrail_dirString (ks : List JSString) : hasTrail (dirString ks) = true := by
  unfold hasTrail dirString
  simp only [decide_eq_true_eq]
  induction ks using List.reverseRecOn with
  | nil => simp
  | append_singleton ks k _ =>
    rw [List.map_append, List.flatten_append]
    simp [List.getLast?_cons, List.getLast?_append]

theorem normal_not_mem_slash {ks : List JSString} (h : ∀ s ∈ ks, Normal s) :
    ∀ s ∈ ks, '/' ∉ s := fun s hs => (h s hs).2.2.2

/-- Normalising the string `getDirectory` has accumulated drops leading `..`. -/
theorem normalizeStr_dirString (j : Nat) (ms : List JSString) (hms : ∀ s ∈ ms, Normal s) :
    normalizeStr (dirString (List.replicate j ['.', '.'] ++ ms)) = dirString ms := by
  have hsl : ∀ s ∈ List.replicate j ['.', '.'] ++ ms, '/' ∉ s := by
    intro s hs
    simp only [List.mem_append, List.mem_replicate] at hs
    rcases hs with ⟨_, rfl⟩ | hs
    · simp
    · exact (hms s hs).2.2.2
  have habs : isAbs (dirString (List.replicate j ['.', '.'] ++ ms)) = true := by
    simp [isAbs, dirString]
  have hsegs : normalizeSegs false (dirString (List.replicate j ['.', '.'] ++ ms)) = ms.reverse := by
    unfold normalizeSegs
    rw [frags_dirString _ hsl]
    simp only [List.foldl_cons, pushSeg_nil, List.foldl_append, List.foldl_nil,
      foldl_pushSeg_dotdots, Bool.false_eq_true, if_false]
    rw [foldl_pushSeg_normals false ms [] hms]
    simp
  rw [normalizeStr_eq _ (by simp [dirString]), habs, hasTrail_dirString]
  simp only [Bool.not_true]
  rw [hsegs, assemble_true_true]

theorem getDirectory_str (p : JSString) :
    getDirectory (.str p) none = .ok (dirOfSegs (segments p)) := by
  have h1 : splitPath (.str (normalizeStr p)) none = .ok (segments p) := by
    rw [splitPath_str _ (normalizeStr_ne_nil p), segments_normalizeStr]
  unfold getDirectory dirOfSegs keptSegs
  simp only [normalize, bind, Except.bind, h1, delimiterOrSlash]
  split
  · rfl
  · split
    · rfl
    · rename_i h0 _
      cases hl : (segments p)[(segments p).length - 1]? with
      | none =>
        exfalso
        rw [List.getElem?_eq_none_iff] at hl
        omega
      | some last =>
        simp only [normalize, foldl_dirString, dirString]
        rfl

theorem isDirectory_str (p : JSString) :
    isDirectory (.str p) =
      match (segments p)[(segments p).length - 1]? with
      | none => .error .typeError
      | some last => .ok (decide (indexOf last '.' = -1)) := by
  have h1 : splitPath (.str (normalizeStr p)) none = .ok (segments p) := by
    rw [splitPath_str _ (normalizeStr_ne_nil p), segments_normalizeStr]
  unfold isDirectory
  simp only [normalize, bind, Except.bind, h1]

theorem segments_nil : segments [] = [['.']] := by
  simp [segments, normalizeStr_nil, frags, prependHead]

/-- The segments of a path are `.` alone, or some `..` followed by kept segments. -/
theorem segments_shape (p : JSString) :
    segments p = [['.']] ∨
      ∃ (k : Nat) (ms : List JSString),
        segments p = List.replicate k ['.', '.'] ++ ms ∧ ∀ s ∈ ms, Normal s := by
  by_cases hp : p = []
  · subst hp; exact Or.inl segments_nil
  · obtain ⟨ns, k, hR, hns, _⟩ := normalizeSegs_reduced (!isAbs p) p
    rw [segments_eq p hp]
    by_cases hne : normalizeSegs (!isAbs p) p = []
    · rw [if_pos hne]
      cases isAbs p
      · exact Or.inl rfl
      · exact Or.inr ⟨0, [], by simp, by simp⟩
    · rw [if_neg hne, hR]
      refine Or.inr ⟨k, ns.reverse, by simp, ?_⟩
      intro s hs
      exact hns s (by simpa using hs)

theorem filter_dotdot (j : Nat) (ms : List JSString) (hms : ∀ s ∈ ms, Normal s) :
    (List.replicate j ['.', '.'] ++ ms).filter (fun s => decide (s ≠ ['.', '.'])) = ms := by
  rw [List.filter_append]
  have h1 : (List.replicate j ['.', '.']).filter (fun s => decide (s ≠ ['.', '.'])) = [] := by
    apply List.filter_eq_nil_iff.2
    intro s hs
    rw [List.mem_replicate] at hs
    simp [hs.2]
  have h2 : ms.filter (fun s => decide (s ≠ ['.', '.'])) = ms := by
    apply List.filter_eq_self.2
    intro s hs
    simpa using (hms s hs).2.2.1
  rw [h1, h2]; rfl

theorem dropLast_shape (k : Nat) (ms : List JSString) (hms : ∀ s ∈ ms, Normal s) :
    ∃ (j : Nat) (ms' : List JSString),
      (List.replicate k ['.', '.'] ++ ms).dropLast = List.replicate j ['.', '.'] ++ ms' ∧
      (∀ s ∈ ms', Normal s) ∧ (ms ≠ [] → ms' = ms.dropLast) ∧ (ms = [] → ms' = []) := by
  by_cases h : ms = []
  · subst h
    refine ⟨k - 1, [], ?_, by simp, by simp, by simp⟩
    cases k with
    | zero => simp
    | succ n =>
      rw [List.append_nil, List.replicate_succ', List.dropLast_concat]
      simp
  · refine ⟨k, ms.dropLast, ?_, ?_, fun _ => rfl, fun e => absurd e h⟩
    · rw [List.dropLast_append_of_ne_nil _ h]
    · intro s hs
      exact hms s (List.mem_of_mem_dropLast hs)

theorem keptSegs_shape (k : Nat) (ms : List JSString) (hms : ∀ s ∈ ms, Normal s) :
    ∃ (j : Nat) (ms' : List JSString),
      keptSegs (List.replicate k ['.', '.'] ++ ms) = List.replicate j ['.', '.'] ++ ms' ∧
      (∀ s ∈ ms', Normal s) := by
  unfold keptSegs
  split
  · split
    · obtain ⟨j, ms', h1, h2, _⟩ := dropLast_shape k ms hms
      exact ⟨j, ms', h1, h2⟩
    · exact ⟨k, ms, rfl, hms⟩
  · exact ⟨k, ms, rfl, hms⟩

/-- `getDirectory` returns `/` followed by kept segments, each followed by `/`. -/
theorem dirOfSegs_eq {parts : List JSString}
    (h : parts = [['.']] ∨ ∃ (k : Nat) (ms : List JSString),
      parts = List.replicate k ['.', '.'] ++ ms ∧ ∀ s ∈ ms, Normal s) :
    dirOfSegs parts = dirString (dirSegs parts) ∧ ∀ s ∈ dirSegs parts, Normal s := by
  rcases h with rfl | ⟨k, ms, rfl, hms⟩
  · constructor
    · simp [dirOfSegs, dirSegs, dirString, indexOf]
    · simp [dirSegs, indexOf]
  · unfold dirOfSegs dirSegs
    by_cases h1 : (List.replicate k ['.', '.'] ++ ms).length = 1 ∧
        ((List.replicate k ['.', '.'] ++ ms)[0]?.map fun q => indexOf q '.') ≠ some (-1)
    · rw [if_pos h1, if_pos h1]
      have : ¬ (List.replicate k ['.', '.'] ++ ms).length = 0 := by omega
      simp [this, dirString]
    · rw [if_neg h1, if_neg h1]
      obtain ⟨j, ms', hk, hms'⟩ := keptSegs_shape k ms hms
      rw [hk, filter_dotdot j ms' hms', normalizeStr_dirString j ms' hms']
      refine ⟨?_, hms'⟩
      split
      · rename_i h0
        have hnil : List.replicate k ['.', '.'] ++ ms = [] := List.length_eq_zero.1 h0
        rw [hnil] at hk
        have : List.replicate j ['.', '.'] ++ ms' = [] := by rw [← hk]; simp [keptSegs]
        simp only [List.append_eq_nil] at this
        rw [this.2]; rfl
      · rfl

/-- `getDirectory` on a string always returns, and its value has this form. -/
theorem getDirectory_form (p : JSString) :
    getDirectory (.str p) none = .ok (dirString (dirSegs (segments p))) ∧
      ∀ s ∈ dirSegs (segments p), Normal s := by
  have h := dirOfSegs_eq (segments_shape p)
  rw [getDirectory_str, h.1]
  exact ⟨rfl, h.2⟩

/-! ### Shape of the result of `getDirectory` -/

theorem chain_of_not_mem (l : JSString) (h : '/' ∉ l) :
    List.Chain' (fun a b : Char => ¬ (a = '/' ∧ b = '/')) l := by
  induction l with
  | nil => exact List.chain'_nil
  | cons a l ih =>
    simp only [List.mem_cons, not_or] at h
    refine List.Chain'.cons' (ih h.2) ?_
    intro y _ hy
    exact h.1 hy.1.symm

theorem chain_flatten (ms : List JSString) (hms : ∀ s ∈ ms, Normal s) :
    List.Chain' (fun a b : Char => ¬ (a = '/' ∧ b = '/')) (ms.map fun s => s ++ ['/']).flatten ∧
      (ms.map fun s => s ++ ['/']).flatten.head? ≠ some '/' := by
  induction ms with
  | nil => simp
  | cons m ms ih =>
    obtain ⟨ih1, ih2⟩ := ih (fun s hs => hms s (by simp [hs]))
    have hm := hms m (by simp)
    have hsl : '/' ∉ m := hm.2.2.2
    simp only [List.map_cons, List.flatten_cons, List.append_assoc, List.singleton_append]
    constructor
    · rw [List.chain'_append]
      refine ⟨chain_of_not_mem m hsl, ?_, ?_⟩
      · refine List.Chain'.cons' ih1 ?_
        intro y hy hyy
        apply ih2
        rw [Option.mem_def] at hy
        rw [hy, hyy.2]
      · intro x hx y _ hxy
        rw [Option.mem_def] at hx
        exact hsl (hxy.1 ▸ List.mem_of_getLast?_eq_some hx)
    · cases m with
      | nil => exact absurd rfl hm.1
      | cons c cs =>
        simp only [List.cons_append, List.head?_cons, ne_eq, Option.some.injEq]
        intro e
        exact hsl (by simp [e])

theorem dirString_shape (ms : List JSString) (hms : ∀ s ∈ ms, Normal s) :
    (dirString ms).head? = some '/' ∧ (dirString ms).getLast? = some '/' ∧
      ¬ (['/', '/'] <:+: dirString ms) := by
  refine ⟨rfl, ?_, ?_⟩
  · have := hasTrail_dirString ms
    simpa [hasTrail] using this
  · intro hinf
    obtain ⟨h1, h2⟩ := chain_flatten ms hms
    have hc : List.Chain' (fun a b : Char => ¬ (a = '/' ∧ b = '/')) (dirString ms) := by
      unfold dirString
      refine List.Chain'.cons' h1 ?_
      intro y hy hyy
      apply h2
      rw [Option.mem_def] at hy
      rw [hy, hyy.2]
    have := hc.infix hinf
    simp [List.chain'_pair] at this

theorem length_dirString (ms : List JSString) :
    (dirString ms).length = 1 + (ms.map fun s => s.length + 1).sum := by
  induction ms with
  | nil => rfl
  | cons m ms ih =>
    simp only [dirString, List.length_cons, List.map_cons, List.flatten_cons, List.length_append,
      List.length_singleton, List.length_nil, List.sum_cons] at ih ⊢
    omega

theorem segments_dirString (ms : List JSString) (hms : ∀ s ∈ ms, Normal s) :
    segments (dirString ms) = ms := by
  have h := normalizeStr_dirString 0 ms hms
  simp only [List.replicate_zero, List.nil_append] at h
  unfold segments
  rw [h, frags_dirString ms (normal_not_mem_slash hms)]
  have hf : ms.filter (fun part => decide (part.length ≠ 0)) = ms := by
    apply List.filter_eq_self.2
    intro s hs
    have := (hms s hs).1
    simpa using this
  simp [List.filter_append, hf]
  exact fun a ha => (hms a ha).1

theorem dirOfSegs_normal (ms : List JSString) (hms : ∀ s ∈ ms, Normal s) :
    dirOfSegs ms = dirString (keptSegs ms) := by
  have h0 : ms = List.replicate 0 ['.', '.'] ++ ms := by simp
  have h := (dirOfSegs_eq (Or.inr ⟨0, ms, h0, hms⟩)).1
  rw [h]
  unfold dirSegs
  split
  · rename_i h1
    obtain ⟨hl, hd⟩ := h1
    match ms, hl, hd with
    | [x], _, hd =>
      have : indexOf x '.' ≠ -1 := by simpa using hd
      simp [keptSegs, this]
  · have hk : ∀ s ∈ keptSegs ms, Normal s := by
      intro s hs
      unfold keptSegs at hs
      split at hs
      · split at hs
        · exact hms s (List.mem_of_mem_dropLast hs)
        · exact hms s hs
      · exact hms s hs
    have := filter_dotdot 0 (keptSegs ms) hk
    simp only [List.replicate_zero, List.nil_append] at this
    rw [this]

theorem length_dirString_dropLast (ms : List JSString) (hne : ms ≠ []) :
    (dirString ms.dropLast).length < (dirString ms).length := by
  have h := List.dropLast_append_getLast hne
  have h2 : (dirString ms).length = (dirString (ms.dropLast ++ [ms.getLast hne])).length := by
    rw [h]
  rw [h2, length_dirString, length_dirString]
  simp

/-- C1: for every non-empty path string `p` (default delimiter), `getDirectory(p)`
returns a string that starts with `/`, ends with `/` and has no two consecutive
`/` characters. -/
theorem getDirectory_slashes (p : JSString) (hp : p ≠ []) :
    ∃ d, getDirectory (.str p) none = .ok d ∧ d.head? = some '/' ∧ d.getLast? = some '/' ∧
      ¬ (['/', '/'] <:+: d) := by
  have _ := hp
  obtain ⟨h1, h2⟩ := getDirectory_form p
  exact ⟨_, h1, dirString_shape _ h2⟩

theorem getDirectory_slashes_witness :
    ['p', '/', '/', 'q', '/', 'f', '.', 't'] ≠ [] ∧
    ∃ d, getDirectory (.str ['p', '/', '/', 'q', '/', 'f', '.', 't']) none = .ok d ∧
      d.head? = some '/' ∧ d.getLast? = some '/' ∧ ¬ (['/', '/'] <:+: d) :=
  ⟨by decide, getDirectory_slashes _ (by decide)⟩

/-- C2 (counterexample): the directory of `a.b/c.d` is `/a.b/`, whose directory is `/`. -/
theorem getDirectory_not_idempotent :
    getDirectory (.str ['a', '.', 'b', '/', 'c', '.', 'd']) none = .ok ['/', 'a', '.', 'b', '/'] ∧
    getDirectory (.str ['/', 'a', '.', 'b', '/']) none = .ok ['/'] ∧
    (['/'] : JSString) ≠ ['/', 'a', '.', 'b', '/'] :=
  ⟨rfl, rfl, by decide⟩

/-- C2 (amended): for every non-empty path string `p`, `getDirectory(p)` returns a
string `d`, and `getDirectory(d)` equals `d` exactly when `d` is `/` or
`isDirectory(d)` is true, that is when the last segment of `d` has no `.`. -/
theorem getDirectory_idempotent_iff (p : JSString) (hp : p ≠ []) :
    ∃ d, getDirectory (.str p) none = .ok d ∧
      (getDirectory (.str d) none = .ok d ↔ (d = ['/'] ∨ isDirectory (.str d) = .ok true)) := by
  have _ := hp
  obtain ⟨h1, h2⟩ := getDirectory_form p
  refine ⟨_, h1, ?_⟩
  generalize dirSegs (segments p) = ms at h2
  rw [getDirectory_str, isDirectory_str, segments_dirString ms h2, dirOfSegs_normal ms h2]
  unfold keptSegs
  cases hl : ms[ms.length - 1]? with
  | none =>
    have : ms = [] := by
      rw [List.getElem?_eq_none_iff] at hl
      cases ms with
      | nil => rfl
      | cons a l => simp at hl
    subst this
    simp [dirString]
  | some last =>
    have hne : ms ≠ [] := by
      intro e; subst e; simp at hl
    have hlen := length_dirString_dropLast ms hne
    have hlen2 : 1 < (dirString ms).length := by
      have := length_dirString ms.dropLast
      omega
    have hd1 : dirString ms ≠ ['/'] := by
      intro e; rw [e] at hlen2; simp at hlen2
    by_cases hdot : indexOf last '.' = -1
    · simp [hdot]
    · have hne2 : dirString ms.dropLast ≠ dirString ms := by
        intro e; rw [e] at hlen; omega
      simp [hdot, hne2, hd1]

theorem getDirectory_idempotent_iff_witness :
    ['a', '.', 'b', '/', 'c', '.', 'd'] ≠ [] ∧
    ∃ d, getDirectory (.str ['a', '.', 'b', '/', 'c', '.', 'd']) none = .ok d ∧
      (getDirectory (.str d) none = .ok d ↔ (d = ['/'] ∨ isDirectory (.str d) = .ok true)) :=
  ⟨by decide, getDirectory_idempotent_iff _ (by decide)⟩

/-! ### Trailing separators and `isDirectory` -/

theorem frags_append_slashes (p : JSString) (n : Nat) :
    frags (p ++ List.replicate n '/') = frags p ++ List.replicate n [] := by
  induction n with
  | zero => simp
  | succ n ih =>
    rw [List.replicate_succ', ← List.append_assoc, frags_snoc_slash, ih, List.replicate_succ']
    simp

theorem foldl_pushSeg_nils (allow : Bool) (n : Nat) (stack : List JSString) :
    (List.replicate n []).foldl (pushSeg allow) stack = stack := by
  induction n with
  | zero => rfl
  | succ n ih => rw [List.replicate_succ, List.foldl_cons, pushSeg_nil, ih]

theorem isAbs_append (p q : JSString) (hp : p ≠ []) : isAbs (p ++ q) = isAbs p := by
  cases p with
  | nil => exact absurd rfl hp
  | cons c cs => simp [isAbs]

theorem segments_append_slashes (p : JSString) (hp : p ≠ []) (n : Nat) :
    segments (p ++ List.replicate n '/') = segments p := by
  have hne : p ++ List.replicate n '/' ≠ [] := by simp [hp]
  have hs : ∀ allow, normalizeSegs allow (p ++ List.replicate n '/') = normalizeSegs allow p := by
    intro allow
    unfold normalizeSegs
    rw [frags_append_slashes, List.foldl_append, foldl_pushSeg_nils]
  rw [segments_eq _ hne, segments_eq p hp, isAbs_append p _ hp, hs]

theorem splitPath_ne_nil {p : JSString} {parts : List JSString}
    (h : splitPath (.str p) none = .ok parts) (hne : parts ≠ []) : p ≠ [] := by
  intro e
  subst e
  simp only [splitPath] at h
  injection h with h
  exact hne h.symm

theorem splitPath_segments {p : JSString} {parts : List JSString}
    (h : splitPath (.str p) none = .ok parts) (hp : p ≠ []) : parts = segments p := by
  rw [splitPath_str p hp] at h
  injection h with h
  exact h.symm

theorem getElem?_last {α : Type} (l : List α) : l[l.length - 1]? = l.getLast? :=
  (List.getLast?_eq_getElem? l).symm

/-- C3: for every path string `p` with at least one segment, `isDirectory(p)` is
false exactly when the last element of `splitPath(p)` contains a `.` and true
otherwise, and appending any number of `/` to `p` does not change the result. -/
theorem isDirectory_last_segment (p : JSString) (parts : List JSString)
    (hparts : splitPath (.str p) none = .ok parts) (hne : parts ≠ []) (n : Nat) :
    (∃ last, parts.getLast? = some last ∧
      isDirectory (.str p) = .ok (decide ('.' ∉ last))) ∧
    isDirectory (.str (p ++ List.replicate n '/')) = isDirectory (.str p) := by
  have hp := splitPath_ne_nil hparts hne
  have hseg := splitPath_segments hparts hp
  constructor
  · rw [isDirectory_str, ← hseg, getElem?_last]
    cases hl : parts.getLast? with
    | none => exact absurd (List.getLast?_eq_none_iff.1 hl) hne
    | some last =>
      refine ⟨last, rfl, ?_⟩
      simp only [indexOf_eq_neg_one]
  · rw [isDirectory_str, isDirectory_str, segments_append_slashes p hp n]

theorem isDirectory_last_segment_witness :
    splitPath (.str ['a', '/', 'b', '.', 'c']) none = .ok [['a'], ['b', '.', 'c']] ∧
    ([['a'], ['b', '.', 'c']] : List JSString) ≠ [] ∧
    ((∃ last, ([['a'], ['b', '.', 'c']] : List JSString).getLast? = some last ∧
      isDirectory (.str ['a', '/', 'b', '.', 'c']) = .ok (decide ('.' ∉ last))) ∧
    isDirectory (.str (['a', '/', 'b', '.', 'c'] ++ List.replicate 2 '/')) =
      isDirectory (.str ['a', '/', 'b', '.', 'c'])) :=
  ⟨rfl, by decide,
    isDirectory_last_segment ['a', '/', 'b', '.', 'c'] [['a'], ['b', '.', 'c']] rfl (by decide) 2⟩

/-! ### `splitPath` against plain splitting -/

theorem foldl_pushSeg_plain (allow : Bool) (fs : List JSString) :
    ∀ stack : List JSString, (∀ f ∈ fs, f ≠ ['.'] ∧ f ≠ ['.', '.']) →
      fs.foldl (pushSeg allow) stack =
        (fs.filter fun f => decide (f.length ≠ 0)).reverse ++ stack := by
  induction fs with
  | nil => intro stack _; rfl
  | cons f fs ih =>
    intro stack h
    have hf := h f (by simp)
    rw [List.foldl_cons, ih _ (fun g hg => h g (by simp [hg]))]
    by_cases h0 : f = []
    · subst h0; simp [pushSeg]
    · have : pushSeg allow stack f = f :: stack := by simp [pushSeg, h0, hf.1, hf.2]
      rw [this]
      simp [List.filter_cons, h0]

theorem head_frags_ne_nil {p : JSString} (hp : p ≠ []) (ha : isAbs p = false) :
    ∃ f fs, frags p = f :: fs ∧ f ≠ [] := by
  cases p with
  | nil => exact absurd rfl hp
  | cons c cs =>
    have hc : c ≠ '/' := by
      intro e; subst e; simp [isAbs] at ha
    cases hfr : frags cs with
    | nil => exact absurd hfr (frags_ne_nil cs)
    | cons g gs =>
      exact ⟨c :: g, gs, by simp [frags, hc, hfr, prependHead], by simp⟩

/-- C6 (counterexample): `splitPath("a/./b")` is `["a","b"]`, while the non-empty
fragments of `a/./b` are `a`, `.` and `b`. -/
theorem splitPath_drops_dot :
    splitPath (.str ['a', '/', '.', '/', 'b']) none = .ok [['a'], ['b']] ∧
    (split ['a', '/', '.', '/', 'b'] ['/']).filter (fun f => f.length ≠ 0) =
      [['a'], ['.'], ['b']] :=
  ⟨rfl, by decide⟩

/-- C6 (amended): for every path string `p` none of whose fragments between `/`
is `.` or `..`, `splitPath(p)` is exactly the ordered sequence of the non-empty
fragments obtained by splitting `p` on `/`. -/
theorem splitPath_eq_fragments (p : JSString)
    (h1 : ['.'] ∉ split p ['/']) (h2 : ['.', '.'] ∉ split p ['/']) :
    splitPath (.str p) none = .ok ((split p ['/']).filter fun f => f.length ≠ 0) := by
  rw [split_slash] at h1 h2 ⊢
  by_cases hp : p = []
  · subst hp; simp [splitPath, frags]
  · have hpl : ∀ f ∈ frags p, f ≠ ['.'] ∧ f ≠ ['.', '.'] := by
      intro f hf
      exact ⟨fun e => h1 (e ▸ hf), fun e => h2 (e ▸ hf)⟩
    have hR : ∀ allow, normalizeSegs allow p =
        ((frags p).filter fun f => decide (f.length ≠ 0)).reverse := by
      intro allow
      unfold normalizeSegs
      rw [foldl_pushSeg_plain allow _ [] hpl]
      simp
    rw [splitPath_str p hp, segments_eq p hp, hR]
    by_cases hne : ((frags p).filter fun f => decide (f.length ≠ 0)).reverse = []
    · rw [if_pos hne]
      have hne' : (frags p).filter (fun f => decide (f.length ≠ 0)) = [] := by
        simpa using hne
      cases ha : isAbs p
      · exfalso
        obtain ⟨f, fs, hfr, hf⟩ := head_frags_ne_nil hp ha
        rw [hfr] at hne'
        have : f ∈ (f :: fs).filter (fun f => decide (f.length ≠ 0)) := by
          simp [List.mem_filter, hf]
        rw [hne'] at this
        simp at this
      · rw [hne']; rfl
    · rw [if_neg hne]
      simp

theorem splitPath_eq_fragments_witness :
    ['.'] ∉ split ['/', 'p', '/', '/', 'q', '.', 't'] ['/'] ∧
    ['.', '.'] ∉ split ['/', 'p', '/', '/', 'q', '.', 't'] ['/'] ∧
    splitPath (.str ['/', 'p', '/', '/', 'q', '.', 't']) none =
      .ok ((split ['/', 'p', '/', '/', 'q', '.', 't'] ['/']).filter fun f => f.length ≠ 0) :=
  ⟨by decide, by decide, splitPath_eq_fragments _ (by decide) (by decide)⟩

/-! ### `getFileObject` -/

theorem getFileObject_str (db : MimeDb) (p : JSString) (hp : p ≠ []) :
    getFileObject db (.str p) =
      match (segments p)[(segments p).length - 1]? with
      | none => .error .typeError
      | some last => .ok (some
          { mimetype := lookup db (normalizeStr p)
            name := if indexOf last '.' = -1 then [] else last
            path := normalizeStr p
            dir := dirOfSegs (segments p)
            extension := (extname (normalizeStr p)).filter fun ch => ch ≠ '.' }) := by
  have h1 : splitPath (.str (normalizeStr p)) none = .ok (segments p) := by
    rw [splitPath_str _ (normalizeStr_ne_nil p), segments_normalizeStr]
  cases p with
  | nil => exact absurd rfl hp
  | cons c cs =>
    unfold getFileObject
    simp only [normalize, bind, Except.bind, h1, isDirectory_str, getDirectory_str,
      segments_normalizeStr]
    cases hl : (segments (c :: cs))[(segments (c :: cs)).length - 1]? with
    | none => rfl
    | some last =>
      by_cases hd : indexOf last '.' = -1
      · simp [hd, pure, Except.pure]
      · simp [hd, pure, Except.pure]

/-- C4 (the code at the failing input): `splitPath` and `getDirectory` return a
value for every string, but `isDirectory("/")` and `getFileObject("/")` raise a
`TypeError`. -/
theorem classification_raises_on_root (db : MimeDb) :
    (∀ p : JSString, ∃ l, splitPath (.str p) none = .ok l) ∧
    (∀ p : JSString, ∃ d, getDirectory (.str p) none = .ok d) ∧
    isDirectory (.str ['/']) = .error .typeError ∧
    getFileObject db (.str ['/']) = .error .typeError := by
  refine ⟨?_, fun p => ⟨_, getDirectory_str p⟩, rfl, rfl⟩
  intro p
  by_cases hp : p = []
  · subst hp; exact ⟨[], rfl⟩
  · exact ⟨_, splitPath_str p hp⟩

theorem dirString_keptSegs_eq_ref (ms : List JSString) :
    dirString (keptSegs ms) = getDirectoryRef ms := by
  unfold keptSegs getDirectoryRef
  rw [getElem?_last]
  cases hl : ms.getLast? with
  | none => rw [List.getLast?_eq_none_iff.1 hl]; rfl
  | some last =>
    simp only [indexOf_ne_neg_one]
    by_cases hd : '.' ∈ last
    · simp only [hd, if_true, and_true]
      by_cases h1 : ms.length = 1
      · match ms, h1 with
        | [x], _ => simp [dirString]
      · simp [h1, dirString]
    · simp [hd, dirString]

/-- C5: for every path string `p` whose segment list `s = splitPath(p)` has no
`..` segment, `getDirectory(p)` equals the reference definition on `s`. -/
theorem getDirectory_eq_ref (p : JSString) (s : List JSString)
    (hs : splitPath (.str p) none = .ok s) (hdd : ['.', '.'] ∉ s) :
    getDirectory (.str p) none = .ok (getDirectoryRef s) := by
  rw [getDirectory_str]
  by_cases hp : p = []
  · subst hp
    simp only [splitPath] at hs
    injection hs with hs
    subst hs
    rw [segments_nil]
    simp [dirOfSegs, getDirectoryRef, indexOf]
  · have hseg := splitPath_segments hs hp
    subst hseg
    rcases segments_shape p with h | ⟨k, ms, h, hms⟩
    · rw [h]
      simp [dirOfSegs, getDirectoryRef, indexOf]
    · have hk : k = 0 := by
        cases k with
        | zero => rfl
        | succ j =>
          exfalso
          apply hdd
          rw [h, List.replicate_succ]
          simp
      subst hk
      simp only [List.replicate_zero, List.nil_append] at h
      rw [h, dirOfSegs_normal ms hms, dirString_keptSegs_eq_ref]

theorem getDirectory_eq_ref_witness :
    splitPath (.str ['p', '/', '/', '/', 'q', '/', '/', 'f', '.', 't']) none =
      .ok [['p'], ['q'], ['f', '.', 't']] ∧
    ['.', '.'] ∉ ([['p'], ['q'], ['f', '.', 't']] : List JSString) ∧
    getDirectory (.str ['p', '/', '/', '/', 'q', '/', '/', 'f', '.', 't']) none =
      .ok (getDirectoryRef [['p'], ['q'], ['f', '.', 't']]) :=
  ⟨rfl, by decide,
    getDirectory_eq_ref ['p', '/', '/', '/', 'q', '/', '/', 'f', '.', 't']
      [['p'], ['q'], ['f', '.', 't']] rfl (by decide)⟩

/-- C7: for every non-empty path string `p` with at least one segment,
`getFileObject(p)` returns a descriptor whose `path` is the normalized `p`, whose
`dir` is `getDirectory(p)` and whose `name` is the last element of `splitPath(p)`
when `isDirectory(p)` is false and the empty string when it is true. -/
theorem getFileObject_fields (db : MimeDb) (p : JSString) (parts : List JSString)
    (hp : p ≠ []) (hparts : splitPath (.str p) none = .ok parts) (hne : parts ≠ []) :
    ∃ (fd : FileDescriptor) (dir : JSString) (isDir : Bool) (last : JSString),
      getFileObject db (.str p) = .ok (some fd) ∧
      normalize (.str p) = .ok fd.path ∧
      getDirectory (.str p) none = .ok dir ∧ fd.dir = dir ∧
      isDirectory (.str p) = .ok isDir ∧ parts.getLast? = some last ∧
      fd.name = (if isDir then [] else last) := by
  have hseg := splitPath_segments hparts hp
  subst hseg
  rw [getFileObject_str db p hp, isDirectory_str, getDirectory_str, getElem?_last]
  cases hl : (segments p).getLast? with
  | none => exact absurd (List.getLast?_eq_none_iff.1 hl) hne
  | some last =>
    refine ⟨_, _, _, last, rfl, rfl, rfl, rfl, rfl, rfl, ?_⟩
    by_cases hd : indexOf last '.' = -1 <;> simp [hd]

theorem getFileObject_fields_witness :
    ['/', '/', 'u', '/', 'f', '.', 'b', '.', 't'] ≠ [] ∧
    splitPath (.str ['/', '/', 'u', '/', 'f', '.', 'b', '.', 't']) none =
      .ok [['u'], ['f', '.', 'b', '.', 't']] ∧
    ([['u'], ['f', '.', 'b', '.', 't']] : List JSString) ≠ [] ∧
    ∃ (fd : FileDescriptor) (dir : JSString) (isDir : Bool) (last : JSString),
      getFileObject sampleDb (.str ['/', '/', 'u', '/', 'f', '.', 'b', '.', 't']) = .ok (some fd) ∧
      normalize (.str ['/', '/', 'u', '/', 'f', '.', 'b', '.', 't']) = .ok fd.path ∧
      getDirectory (.str ['/', '/', 'u', '/', 'f', '.', 'b', '.', 't']) none = .ok dir ∧
      fd.dir = dir ∧
      isDirectory (.str ['/', '/', 'u', '/', 'f', '.', 'b', '.', 't']) = .ok isDir ∧
      ([['u'], ['f', '.', 'b', '.', 't']] : List JSString).getLast? = some last ∧
      fd.name = (if isDir then [] else last) :=
  ⟨by decide, rfl, by decide,
    getFileObject_fields sampleDb ['/', '/', 'u', '/', 'f', '.', 'b', '.', 't']
      [['u'], ['f', '.', 'b', '.', 't']] (by decide) rfl (by decide)⟩

/-- C9: `getFileObject` returns `null` if and only if its input is the empty
string, `null` or `undefined`; for no non-empty string does it return `null`. -/
theorem getFileObject_null_iff (db : MimeDb) (v : JSValue) :
    getFileObject db v = .ok none ↔ (v = .str [] ∨ v = .null ∨ v = .undefined) := by
  cases v with
  | undefined => simp [getFileObject]
  | null => simp [getFileObject]
  | str p =>
    by_cases hp : p = []
    · subst hp; simp [getFileObject]
    · rw [getFileObject_str db p hp]
      cases (segments p)[(segments p).length - 1]? <;> simp [hp]

/-- C10 (the code on the claim's inputs): when `splitPath(p)` is empty,
`isDirectory(p)` never returns true: it returns false for the empty string and
raises a `TypeError` for every other such path, `/` among them. -/
theorem isDirectory_no_segments (p : JSString) (h : splitPath (.str p) none = .ok []) :
    (p = [] ∧ isDirectory (.str p) = .ok false) ∨
    (p ≠ [] ∧ isDirectory (.str p) = .error .typeError) := by
  by_cases hp : p = []
  · subst hp; exact Or.inl ⟨rfl, rfl⟩
  · have hseg := splitPath_segments h hp
    refine Or.inr ⟨hp, ?_⟩
    rw [isDirectory_str, ← hseg]
    rfl

theorem isDirectory_no_segments_witness :
    splitPath (.str ['/']) none = .ok [] ∧
    (((['/'] : JSString) = [] ∧ isDirectory (.str ['/']) = .ok false) ∨
     ((['/'] : JSString) ≠ [] ∧ isDirectory (.str ['/']) = .error .typeError)) :=
  ⟨rfl, isDirectory_no_segments ['/'] rfl⟩

/-! ### `path.extname` -/

theorem extnameBody_char (path : JSString) (e i : Nat) (sfx : JSString) (c : Char)
    (hc : path.getD i '/' = c) (hne : c ≠ '/') (hi : i + 1 + sfx.length = e) :
    extnameBody path i (extStateOf e sfx) = .inr (extStateOf e (c :: sfx)) := by
  have he : ((i : Int) + 1) = (e : Int) ∨ sfx ≠ [] := by
    by_cases h : sfx = []
    · left; subst h; simp at hi; omega
    · right; exact h
  unfold extnameBody
  simp only [hc, hne, if_false]
  cases hs : sfx with
  | nil =>
    subst hs
    have hi' : (i : Int) + 1 = (e : Int) := by simp at hi; omega
    by_cases hd : c = '.'
    · simp [extStateOf, extAbs, hd, hi']
      omega
    · simp [extStateOf, extAbs, hd, hi']
  | cons x xs =>
    rw [← hs]
    have hne' : sfx ≠ [] := by rw [hs]; simp
    cases ha : extAbs sfx with
    | mk d pds =>
      cases d with
      | none =>
        by_cases hd : c = '.'
        · simp [extStateOf, extAbs, ha, hd, hne']
          omega
        · simp [extStateOf, extAbs, ha, hd, hne']
      | some k =>
        have hk : ¬ (((e - sfx.length + k : Nat) : Int) = -1) := by omega
        have hk2 : e - (sfx.length + 1) + (k + 1) = e - sfx.length + k := by omega
        have hk3 : ¬ (((e - sfx.length : Nat) : Int) + (k : Int) = -1) := by omega
        by_cases hd : c = '.'
        · by_cases hp : pds = 1
          · simp [extStateOf, extAbs, ha, hd, hne', hk, hk3, hp, hk2]
          · simp [extStateOf, extAbs, ha, hd, hne', hk, hk3, hp, hk2]
        · simp [extStateOf, extAbs, ha, hd, hne', hk, hk3, hk2]

theorem extnameBody_skip (path : JSString) (i : Nat) (st : ExtState)
    (hc : path.getD i '/' = '/') (hm : st.matchedSlash = true) :
    extnameBody path i st = .inr st := by
  simp only [extnameBody, hc, hm, if_true, Bool.not_true, Bool.false_eq_true, if_false]

theorem extnameBody_break (path : JSString) (i : Nat) (st : ExtState)
    (hc : path.getD i '/' = '/') (hm : st.matchedSlash = false) :
    extnameBody path i st = .inl { st with startPart := (i : Int) + 1 } := by
  simp only [extnameBody, hc, hm, if_true, Bool.not_false]

theorem extnameLoop_succ (path : JSString) (i : Nat) (st : ExtState) :
    extnameLoop path (i + 1) st =
      match extnameBody path i st with
      | .inl st' => st'
      | .inr st' => extnameLoop path i st' := rfl

theorem getD_append_mid (pre a sfx tr : JSString) (c d : Char) :
    (pre ++ (a ++ c :: sfx) ++ tr).getD (pre.length + a.length) d = c := by
  have h : pre ++ (a ++ c :: sfx) ++ tr = (pre ++ a) ++ (c :: (sfx ++ tr)) := by simp
  rw [h, List.getD_eq_getElem?_getD, show pre.length + a.length = (pre ++ a).length by simp,
    List.getElem?_append_right (le_refl _)]
  simp

theorem extnameLoop_trailing (pre : JSString) (n : Nat) (st : ExtState)
    (hm : st.matchedSlash = true) :
    extnameLoop (pre ++ List.replicate n '/') (pre.length + n) st =
      extnameLoop (pre ++ List.replicate n '/') pre.length st := by
  suffices h : ∀ m, m ≤ n →
      extnameLoop (pre ++ List.replicate n '/') (pre.length + m) st =
        extnameLoop (pre ++ List.replicate n '/') pre.length st from h n (le_refl _)
  intro m
  induction m with
  | zero => intro _; rfl
  | succ m ih =>
    intro hmn
    have hc : (pre ++ List.replicate n '/').getD (pre.length + m) '/' = '/' := by
      rw [List.getD_eq_getElem?_getD, List.getElem?_append_right (by omega)]
      simp
    rw [← Nat.add_assoc, extnameLoop_succ, extnameBody_skip _ _ _ hc hm]
    exact ih (by omega)

theorem extnameLoop_seg (pre seg tr : JSString) (hsl : '/' ∉ seg) :
    ∀ a sfx : JSString, seg = a ++ sfx →
      extnameLoop (pre ++ seg ++ tr) (pre.length + a.length)
          (extStateOf (pre.length + seg.length) sfx) =
        extnameLoop (pre ++ seg ++ tr) pre.length
          (extStateOf (pre.length + seg.length) seg) := by
  intro a
  induction a using List.reverseRecOn with
  | nil => intro sfx h; simp at h; subst h; rfl
  | append_singleton a c ih =>
    intro sfx h
    have h' : seg = a ++ c :: sfx := by rw [h]; simp
    have hc : c ≠ '/' := by
      intro e
      apply hsl
      rw [h', e]; simp
    have hget : (pre ++ seg ++ tr).getD (pre.length + a.length) '/' = c := by
      rw [h']; exact getD_append_mid pre a sfx tr c '/'
    have hi : pre.length + a.length + 1 + sfx.length = pre.length + seg.length := by
      rw [h']; simp; omega
    have hb := extnameBody_char (pre ++ seg ++ tr) (pre.length + seg.length)
      (pre.length + a.length) sfx c hget hc hi
    rw [List.length_append, List.length_singleton, ← Nat.add_assoc, extnameLoop_succ, hb]
    exact ih (c :: sfx) h'

theorem extAbs_spec (seg : JSString) :
    ('.' ∉ seg ∧ extAbs seg = (none, 0)) ∨
    ∃ a b : JSString, seg = a ++ '.' :: b ∧ '.' ∉ b ∧
      extAbs seg = (some a.length, if a = [] then 0 else if a.head? = some '.' then 1 else -1) := by
  induction seg with
  | nil => left; simp [extAbs]
  | cons c s ih =>
    rcases ih with ⟨h1, h2⟩ | ⟨a, b, h1, h2, h3⟩
    · by_cases hc : c = '.'
      · right
        refine ⟨[], s, by simp [hc], h1, ?_⟩
        simp [extAbs, h2, hc]
      · left
        refine ⟨?_, by simp [extAbs, h2, hc]⟩
        simp only [List.mem_cons, not_or]
        exact ⟨fun e => hc e.symm, h1⟩
    · right
      refine ⟨c :: a, b, by simp [h1], h2, ?_⟩
      by_cases hc : c = '.'
      · simp [extAbs, h3, hc]
      · simp [extAbs, h3, hc]

theorem extState_startPart (st : ExtState) (h : st.startPart = 0) :
    { st with startPart := ((0 : Nat) : Int) } = st := by
  cases st
  simp_all

theorem extnameLoop_final (pre seg : JSString) (n : Nat) (hseg : seg ≠ []) (hsl : '/' ∉ seg)
    (hpre : pre = [] ∨ ∃ pre', pre = pre' ++ ['/']) :
    extnameLoop (pre ++ seg ++ List.replicate n '/') (pre ++ seg ++ List.replicate n '/').length
        { startDot := -1, startPart := 0, «end» := -1, matchedSlash := true, preDotState := 0 } =
      { extStateOf (pre.length + seg.length) seg with startPart := pre.length } := by
  have h0 : extStateOf (pre.length + seg.length) [] =
      ⟨-1, 0, -1, true, 0⟩ := by
    simp [extStateOf, extAbs]
  have hlen : (pre ++ seg ++ List.replicate n '/').length = (pre ++ seg).length + n := by
    simp [Nat.add_assoc]
  rw [hlen, extnameLoop_trailing (pre ++ seg) n _ rfl, ← h0]
  have h2 := extnameLoop_seg pre seg (List.replicate n '/') hsl seg [] (by simp)
  rw [List.length_append, h2]
  have hm : (extStateOf (pre.length + seg.length) seg).matchedSlash = false := by
    simp [extStateOf, hseg]
  have hsp : (extStateOf (pre.length + seg.length) seg).startPart = 0 := rfl
  rcases hpre with rfl | ⟨pre', rfl⟩
  · simp only [List.length_nil, extnameLoop]
    exact (extState_startPart _ hsp).symm
  · have hc : (pre' ++ ['/'] ++ seg ++ List.replicate n '/').getD pre'.length '/' = '/' := by
      have := getD_append_mid pre' [] (seg ++ List.replicate n '/') [] '/' '/'
      simpa using this
    generalize extStateOf ((pre' ++ ['/']).length + seg.length) seg = st at hm ⊢
    rw [List.length_append, List.length_singleton, extnameLoop_succ,
      extnameBody_break _ _ _ hc hm]
    simp

theorem slice_drop (pre seg tr : JSString) (k : Nat) (hk : k ≤ seg.length) :
    slice (pre ++ seg ++ tr) ((pre.length + k : Nat) : Int) ((pre.length + seg.length : Nat) : Int)
      = seg.drop k := by
  have h : pre ++ seg ++ tr = (pre ++ seg.take k) ++ seg.drop k ++ tr := by
    simp [List.append_assoc]
  have hl : (pre ++ seg.take k).length = pre.length + k := by simp [hk]
  have hl2 : pre.length + seg.length = (pre ++ seg.take k).length + (seg.drop k).length := by
    simp; omega
  rw [h, ← hl, hl2]
  exact slice_mid _ _ _

/-- `extname` reads the extension off the last segment of the path. -/
theorem extname_decomp (pre seg : JSString) (n : Nat) (hseg : seg ≠ []) (hsl : '/' ∉ seg)
    (hpre : pre = [] ∨ ∃ pre', pre = pre' ++ ['/']) :
    extname (pre ++ seg ++ List.replicate n '/') = extOfSeg seg := by
  unfold extname
  rw [extnameLoop_final pre seg n hseg hsl hpre]
  unfold extOfSeg
  rcases extAbs_spec seg with ⟨_, h2⟩ | ⟨a, b, h1, _, h3⟩
  · simp [extStateOf, h2]
  · have hk : a.length < seg.length := by rw [h1]; simp
    have hend : (if seg = [] then (-1 : Int) else ((pre.length + seg.length : Nat) : Int)) =
        ((pre.length + seg.length : Nat) : Int) := by simp [hseg]
    have hsd : pre.length + seg.length - seg.length + a.length = pre.length + a.length := by omega
    simp only [extStateOf, h3, hend, hsd]
    have c1 : ¬ (((pre.length + a.length : Nat) : Int) = -1) := by omega
    have c2 : ¬ (((pre.length + seg.length : Nat) : Int) = -1) := by omega
    have c3 : (((pre.length + a.length : Nat) : Int) = ((pre.length + seg.length : Nat) : Int) - 1)
        ↔ a.length + 1 = seg.length := by omega
    have c4 : (((pre.length + a.length : Nat) : Int) = (pre.length : Int) + 1) ↔ a.length = 1 := by
      omega
    simp only [c1, c2, c3, c4, false_or]
    rw [slice_drop pre seg _ a.length (le_of_lt hk)]

/-- Every string is made of separators only, or ends with a last segment followed
by separators. -/
theorem path_decomp (q : JSString) :
    (∃ m, q = List.replicate m '/') ∨
    ∃ (pre seg : JSString) (n : Nat), q = pre ++ seg ++ List.replicate n '/' ∧ seg ≠ [] ∧
      '/' ∉ seg ∧ (pre = [] ∨ ∃ pre', pre = pre' ++ ['/']) := by
  induction q using List.reverseRecOn with
  | nil => exact Or.inl ⟨0, rfl⟩
  | append_singleton q c ih =>
    by_cases hc : c = '/'
    · subst hc
      rcases ih with ⟨m, rfl⟩ | ⟨pre, seg, n, rfl, h1, h2, h3⟩
      · exact Or.inl ⟨m + 1, by rw [List.replicate_succ']⟩
      · exact Or.inr ⟨pre, seg, n + 1, by rw [List.replicate_succ']; simp, h1, h2, h3⟩
    · have hc' : '/' ∉ [c] := by simp; exact fun e => hc e.symm
      rcases ih with ⟨m, rfl⟩ | ⟨pre, seg, n, rfl, h1, h2, h3⟩
      · refine Or.inr ⟨List.replicate m '/', [c], 0, by simp, by simp, hc', ?_⟩
        cases m with
        | zero => left; rfl
        | succ k => right; exact ⟨List.replicate k '/', List.replicate_succ' _ _⟩
      · cases n with
        | zero =>
          refine Or.inr ⟨pre, seg ++ [c], 0, by simp, by simp, ?_, h3⟩
          simp only [List.mem_append, not_or]
          exact ⟨h2, hc'⟩
        | succ k =>
          refine Or.inr ⟨pre ++ seg ++ List.replicate (k + 1) '/', [c], 0, by simp, by simp, hc',
            Or.inr ⟨pre ++ seg ++ List.replicate k '/', ?_⟩⟩
          rw [List.replicate_succ']; simp

theorem filter_frags_slashes (m : Nat) :
    (frags (List.replicate m '/')).filter (fun f => decide (f.length ≠ 0)) = [] := by
  have h := frags_append_slashes [] m
  simp only [List.nil_append] at h
  rw [h]
  simp [frags, List.filter_append]

theorem last_segment_decomp (pre seg : JSString) (n : Nat) (hseg : seg ≠ []) (hsl : '/' ∉ seg)
    (hpre : pre = [] ∨ ∃ pre', pre = pre' ++ ['/']) :
    ((frags (pre ++ seg ++ List.replicate n '/')).filter
      (fun f => decide (f.length ≠ 0))).getLast? = some seg := by
  have hn : (List.replicate n ([] : JSString)).filter (fun f => decide (f.length ≠ 0)) = [] := by
    apply List.filter_eq_nil_iff.2
    intro f hf
    rw [List.mem_replicate] at hf
    simp [hf.2]
  have hs : [seg].filter (fun f => decide (f.length ≠ 0)) = [seg] := by
    simp [List.filter_cons, hseg]
  rw [frags_append_slashes, List.filter_append, hn, List.append_nil]
  rcases hpre with rfl | ⟨pre', rfl⟩
  · rw [List.nil_append, frags_of_not_mem hsl, hs]; rfl
  · rw [List.append_assoc, List.singleton_append, frags_append_slash, frags_of_not_mem hsl,
      List.filter_append, hs]
    simp

/-- `extname` of a path is determined by its last non-empty fragment. -/
theorem extname_last_segment (q last : JSString)
    (h : ((frags q).filter (fun f => decide (f.length ≠ 0))).getLast? = some last) :
    extname q = extOfSeg last := by
  rcases path_decomp q with ⟨m, rfl⟩ | ⟨pre, seg, n, rfl, h1, h2, h3⟩
  · rw [filter_frags_slashes] at h
    simp at h
  · rw [last_segment_decomp pre seg n h1 h2 h3] at h
    injection h with h
    subst h
    exact extname_decomp pre seg n h1 h2 h3

theorem extOfSeg_filter (seg : JSString) :
    (extOfSeg seg).filter (fun ch => decide (ch ≠ '.')) =
      if lastIndexOf seg '.' ≤ 0 then [] else slice seg (lastIndexOf seg '.' + 1) seg.length := by
  unfold extOfSeg
  rcases extAbs_spec seg with ⟨h1, h2⟩ | ⟨a, b, h1, h2, h3⟩
  · rw [h2, lastIndexOf_not_mem h1]
    simp
  · have hl : lastIndexOf seg '.' = a.length := by rw [h1]; exact lastIndexOf_append a b '.' h2
    have hb : b.filter (fun ch => decide (ch ≠ '.')) = b := by
      apply List.filter_eq_self.2
      intro ch hch
      simp only [ne_eq, decide_eq_true_eq]
      intro e
      exact h2 (e ▸ hch)
    have hsl : slice seg ((a.length : Int) + 1) seg.length = b := by
      have := slice_mid (a ++ ['.']) b []
      simp only [List.append_nil, List.length_append, List.length_singleton] at this
      rw [h1]
      have e1 : a ++ '.' :: b = a ++ ['.'] ++ b := by simp
      rw [e1]
      convert this using 2
      simp
      omega
    have hd : seg.drop a.length = '.' :: b := by rw [h1]; simp
    rw [h3, hl, hsl]
    simp only [hd]
    by_cases ha : a = []
    · subst ha; simp
    · have hpos : ¬ ((a.length : Int) ≤ 0) := by
        have := List.length_pos.2 ha
        omega
      simp only [ha, if_false, hpos]
      by_cases hh : a.head? = some '.'
      · simp only [hh, if_true]
        by_cases hdd : a.length + 1 = seg.length ∧ a.length = 1
        · have hb0 : b = [] := by
            have := hdd.1
            rw [h1] at this
            simp at this
            exact this
          simp [hdd, hb0]
        · have : ¬ ((1 : Int) = 0 ∨ True ∧ a.length + 1 = seg.length ∧ a.length = 1) := by
            simp; exact fun x y => hdd ⟨x, y⟩
          rw [if_neg this, List.filter_cons_of_neg (by simp), hb]
      · simp only [hh, if_false]
        have : ¬ ((-1 : Int) = 0 ∨ (-1 : Int) = 1 ∧ a.length + 1 = seg.length ∧ a.length = 1) := by
          simp
        rw [if_neg this, List.filter_cons_of_neg (by simp), hb]

/-- C8 (counterexample): for the path `.rc` the `extension` is empty, while the
part of the final segment `.rc` after its last `.` is `rc`. -/
theorem getFileObject_dotfile_extension :
    splitPath (.str ['.', 'r', 'c']) none = .ok [['.', 'r', 'c']] ∧
    getFileObject sampleDb (.str ['.', 'r', 'c']) =
      .ok (some { mimetype := none, name := ['.', 'r', 'c'], path := ['.', 'r', 'c'],
                  dir := ['/'], extension := [] }) ∧
    slice ['.', 'r', 'c'] (lastIndexOf ['.', 'r', 'c'] '.' + 1) 3 = ['r', 'c'] :=
  ⟨rfl, rfl, by decide⟩

/-- C8 (amended): for every non-empty path string `p` with a final segment, the
`extension` of `getFileObject(p)` is the part of the final segment after its last
`.`, without the dot, when that `.` is not the first character of the segment;
it is the empty string when the final segment has no `.` or its last `.` is its
first character. -/
theorem getFileObject_extension (db : MimeDb) (p : JSString) (parts : List JSString)
    (last : JSString) (hp : p ≠ []) (hparts : splitPath (.str p) none = .ok parts)
    (hlast : parts.getLast? = some last) :
    ∃ fd : FileDescriptor, getFileObject db (.str p) = .ok (some fd) ∧
      fd.extension =
        if lastIndexOf last '.' ≤ 0 then []
        else slice last (lastIndexOf last '.' + 1) last.length := by
  have hseg := splitPath_segments hparts hp
  subst hseg
  have hext := extname_last_segment (normalizeStr p) last hlast
  rw [getFileObject_str db p hp, getElem?_last, hlast]
  refine ⟨_, rfl, ?_⟩
  simp only [hext]
  exact extOfSeg_filter last

theorem getFileObject_extension_witness :
    ['/', 'u', '/', 'f', '.', 'b', '.', 't'] ≠ [] ∧
    splitPath (.str ['/', 'u', '/', 'f', '.', 'b', '.', 't']) none =
      .ok [['u'], ['f', '.', 'b', '.', 't']] ∧
    ([['u'], ['f', '.', 'b', '.', 't']] : List JSString).getLast? = some ['f', '.', 'b', '.', 't'] ∧
    ∃ fd : FileDescriptor,
      getFileObject sampleDb (.str ['/', 'u', '/', 'f', '.', 'b', '.', 't']) = .ok (some fd) ∧
      fd.extension =
        if lastIndexOf ['f', '.', 'b', '.', 't'] '.' ≤ 0 then []
        else slice ['f', '.', 'b', '.', 't'] (lastIndexOf ['f', '.', 'b', '.', 't'] '.' + 1)
          (['f', '.', 'b', '.', 't'] : JSString).length :=
  ⟨by decide, rfl, rfl,
    getFileObject_extension sampleDb ['/', 'u', '/', 'f', '.', 'b', '.', 't']
      [['u'], ['f', '.', 'b', '.', 't']] ['f', '.', 'b', '.', 't'] (by decide) rfl rfl⟩

/-! ### `mimetypes.lookup` on directory paths -/

theorem isAbs_normalizeStr (p : JSString) (hp : p ≠ []) : isAbs (normalizeStr p) = isAbs p := by
  rw [normalizeStr_eq p hp]
  exact isAbs_assemble _ _ (reduced_stackOK (normalizeSegs_reduced _ p))

theorem frags_x_dot (q : JSString) :
    frags ('x' :: '.' :: q) = prependHead ['x', '.'] (frags q) := by
  have h1 : frags ('x' :: '.' :: q) = prependHead ['x'] (frags ('.' :: q)) := by
    simp [frags]
  have h2 : frags ('.' :: q) = prependHead ['.'] (frags q) := by
    simp [frags]
  rw [h1, h2, prependHead_prependHead]
  rfl

theorem filter_x_dot_last (q f : JSString) (fs : List JSString) (hq : frags q = f :: fs)
    (hfs : fs.filter (fun g => decide (g.length ≠ 0)) ≠ []) :
    ((frags ('x' :: '.' :: q)).filter (fun g => decide (g.length ≠ 0))).getLast? =
      ((frags q).filter (fun g => decide (g.length ≠ 0))).getLast? := by
  rw [frags_x_dot, hq]
  simp only [prependHead, List.filter_cons]
  have h1 : decide ((['x', '.'] ++ f).length ≠ 0) = true := by simp
  rw [if_pos h1]
  generalize fs.filter (fun g => decide (g.length ≠ 0)) = G at hfs
  cases G with
  | nil => exact absurd rfl hfs
  | cons g gs =>
    split <;> simp [List.getLast?_cons_cons]

theorem filter_x_dot_single (q f : JSString) (fs : List JSString) (hq : frags q = f :: fs)
    (hfs : fs.filter (fun g => decide (g.length ≠ 0)) = []) :
    (frags ('x' :: '.' :: q)).filter (fun g => decide (g.length ≠ 0)) = [['x', '.'] ++ f] := by
  rw [frags_x_dot, hq]
  simp only [prependHead, List.filter_cons]
  have h1 : decide ((['x', '.'] ++ f).length ≠ 0) = true := by simp
  rw [if_pos h1, hfs]

theorem extOfSeg_no_dot {seg : JSString} (h : '.' ∉ seg) : extOfSeg seg = [] := by
  rcases extAbs_spec seg with ⟨_, h2⟩ | ⟨a, b, h1, _, _⟩
  · simp [extOfSeg, h2]
  · exfalso; apply h; rw [h1]; simp

theorem extOfSeg_x_dot {seg : JSString} (h : '.' ∉ seg) :
    extOfSeg (['x', '.'] ++ seg) = '.' :: seg := by
  rcases extAbs_spec seg with ⟨_, h2⟩ | ⟨a, b, h1, _, _⟩
  · simp [extOfSeg, extAbs, h2]
  · exfalso; apply h; rw [h1]; simp

/-- `mimetypes.lookup` of a path whose last segment has no `.` and is preceded by
a separator or another segment. -/
theorem lookup_directory (db : MimeDb) (q last f : JSString) (fs : List JSString)
    (hlow : db.toLowerCase [] = []) (hq : frags q = f :: fs)
    (hfs : fs.filter (fun g => decide (g.length ≠ 0)) ≠ [])
    (hlast : ((frags q).filter (fun g => decide (g.length ≠ 0))).getLast? = some last)
    (hdot : '.' ∉ last) : lookup db q = none := by
  have h := extname_last_segment ('x' :: '.' :: q) last
    (by rw [filter_x_dot_last q f fs hq hfs]; exact hlast)
  unfold lookup
  split
  · rfl
  · simp only [h, extOfSeg_no_dot hdot, hlow]
    rfl

/-- `mimetypes.lookup` of a path that is one relative segment, with or without separators after it, is `mimetypes.lookup` of that segment. -/
theorem lookup_single (db : MimeDb) (q f : JSString) (fs : List JSString)
    (hq : frags q = f :: fs) (hf : f ≠ [])
    (hfs : fs.filter (fun g => decide (g.length ≠ 0)) = []) :
    lookup db q = lookup db f := by
  have hsl : '/' ∉ f := not_mem_of_mem_frags (hq ▸ List.mem_cons_self f fs)
  have hqne : q ≠ [] := by
    intro e; subst e
    simp [frags] at hq
    exact hf hq.1
  have h1 := extname_last_segment ('x' :: '.' :: q) (['x', '.'] ++ f)
    (by rw [filter_x_dot_single q f fs hq hfs]; rfl)
  have hf2 : frags f = [f] := frags_of_not_mem hsl
  have h2 := extname_last_segment ('x' :: '.' :: f) (['x', '.'] ++ f)
    (by rw [filter_x_dot_single f f [] hf2 rfl]; rfl)
  unfold lookup
  have e1 : q.length ≠ 0 := by simpa using hqne
  have e2 : f.length ≠ 0 := by simpa using hf
  simp only [e1, e2, if_false, h1, h2]

/-- C11 (counterexample): the relative path `txt` is classified as a directory,
yet `getFileObject` gives it the media type of the extension `txt`. -/
theorem getFileObject_directory_with_mimetype :
    isDirectory (.str ['t', 'x', 't']) = .ok true ∧
    getFileObject sampleDb (.str ['t', 'x', 't']) =
      .ok (some { mimetype := some ['t', 'e', 'x', 't', '/', 'p', 'l', 'a', 'i', 'n'],
                  name := [], path := ['t', 'x', 't'], dir := ['/', 't', 'x', 't', '/'],
                  extension := [] }) :=
  ⟨rfl, rfl⟩

/-- C11 (amended): for every non-empty path string `p` that is classified as a
directory, `getFileObject(p)` has `name` `""`; its `mimetype` is false when `p`
starts with `/` or has at least two segments, and for a relative `p` of a single
segment it is `mimetypes.lookup` of that segment (the segment read as an
extension). -/
theorem getFileObject_directory (db : MimeDb) (p : JSString) (parts : List JSString)
    (hp : p ≠ []) (hlow : db.toLowerCase [] = [])
    (hparts : splitPath (.str p) none = .ok parts)
    (hdir : isDirectory (.str p) = .ok true) :
    ∃ fd : FileDescriptor, getFileObject db (.str p) = .ok (some fd) ∧ fd.name = [] ∧
      ((p.head? = some '/' ∨ 2 ≤ parts.length) → fd.mimetype = none) ∧
      (∀ seg, p.head? ≠ some '/' → parts = [seg] → fd.mimetype = lookup db seg) := by
  have hseg := splitPath_segments hparts hp
  subst hseg
  rw [isDirectory_str] at hdir
  rw [getFileObject_str db p hp]
  cases hl : (segments p)[(segments p).length - 1]? with
  | none => rw [hl] at hdir; simp at hdir
  | some last =>
    rw [hl] at hdir
    have hnd : indexOf last '.' = -1 := by
      injection hdir with hdir
      simpa using hdir
    have hdot : '.' ∉ last := (indexOf_eq_neg_one last '.').1 hnd
    have hlast : (segments p).getLast? = some last := by rw [← getElem?_last]; exact hl
    refine ⟨_, rfl, by simp [hnd], ?_, ?_⟩
    · intro hcase
      cases hfr : frags (normalizeStr p) with
      | nil => exact absurd hfr (frags_ne_nil _)
      | cons f fs =>
        have hsegs : segments p =
            (if decide (f.length ≠ 0) = true then f :: fs.filter (fun g => decide (g.length ≠ 0))
             else fs.filter (fun g => decide (g.length ≠ 0))) := by
          unfold segments; rw [hfr, List.filter_cons]
        have hfs : fs.filter (fun g => decide (g.length ≠ 0)) ≠ [] := by
          intro e
          rw [e] at hsegs
          rcases hcase with ha | h2
          · have habs : isAbs (normalizeStr p) = true := by
              rw [isAbs_normalizeStr p hp]; simp [isAbs, ha]
            have hf : f = [] := by
              cases hq : normalizeStr p with
              | nil => rw [hq] at hfr; simp [frags] at hfr; exact hfr.1
              | cons c cs =>
                rw [hq] at habs hfr
                have hc : c = '/' := by simpa [isAbs] using habs
                subst hc
                rw [frags_cons_slash] at hfr
                injection hfr with h1 _
                exact h1.symm
            subst hf
            simp at hsegs
            rw [hsegs] at hlast
            simp at hlast
          · rw [hsegs] at h2
            split at h2 <;> simp at h2
        exact lookup_directory db _ last f fs hlow hfr hfs hlast hdot
    · intro seg hrel hone
      have hrel' : isAbs (normalizeStr p) = false := by
        rw [isAbs_normalizeStr p hp]; simpa [isAbs] using hrel
      obtain ⟨f, fs, hfr, hf⟩ := head_frags_ne_nil (normalizeStr_ne_nil p) hrel'
      have hsegs : segments p = f :: fs.filter (fun g => decide (g.length ≠ 0)) := by
        unfold segments; rw [hfr, List.filter_cons]
        simp [hf]
      rw [hone] at hsegs hlast
      injection hsegs with h1 h2
      subst h1
      simp at hlast
      subst hlast
      exact lookup_single db _ _ fs hfr hf h2.symm

theorem getFileObject_directory_witness :
    ['/', 'u', '/', 'b', '/'] ≠ [] ∧ sampleDb.toLowerCase [] = [] ∧
    splitPath (.str ['/', 'u', '/', 'b', '/']) none = .ok [['u'], ['b']] ∧
    isDirectory (.str ['/', 'u', '/', 'b', '/']) = .ok true ∧
    ∃ fd : FileDescriptor,
      getFileObject sampleDb (.str ['/', 'u', '/', 'b', '/']) = .ok (some fd) ∧ fd.name = [] ∧
      (((['/', 'u', '/', 'b', '/'] : JSString).head? = some '/' ∨
          2 ≤ ([['u'], ['b']] : List JSString).length) → fd.mimetype = none) ∧
      (∀ seg, (['/', 'u', '/', 'b', '/'] : JSString).head? ≠ some '/' →
        ([['u'], ['b']] : List JSString) = [seg] → fd.mimetype = lookup sampleDb seg) :=
  ⟨by decide, rfl, rfl, rfl,
    getFileObject_directory sampleDb ['/', 'u', '/', 'b', '/'] [['u'], ['b']] (by decide) rfl
      rfl rfl⟩

/-! ### `getDirectory` with a delimiter -/

theorem foldl_keeps_head (dl : JSString) (parts : List JSString) (t : JSString) :
    ∃ t', parts.foldl (fun res part => res ++ (part ++ dl)) ('/' :: t) = '/' :: t' := by
  induction parts generalizing t with
  | nil => exact ⟨t, rfl⟩
  | cons x xs ih => exact ih (t ++ (x ++ dl))

theorem head_normalizeStr_abs (t : JSString) : (normalizeStr ('/' :: t)).head? = some '/' := by
  have h := isAbs_normalizeStr ('/' :: t) (by simp)
  simpa [isAbs] using h

theorem splitPath_delimiter_ok (q : JSString) (d : Option JSString) :
    ∃ parts, splitPath (.str q) d = .ok parts := by
  cases q with
  | nil => exact ⟨[], rfl⟩
  | cons c cs => exact ⟨_, rfl⟩

/-- C14 (the code on any delimiter): whatever the delimiter, `getDirectory`
returns a string that begins with `/`; with the delimiter `-` the path
`a-b-c.txt` gives `/a-b-` and the path `a.txt` gives `/`. -/
theorem getDirectory_delimiter_begins_with_slash :
    (∀ (p : JSString) (d : Option JSString),
      ∃ r, getDirectory (.str p) d = .ok r ∧ r.head? = some '/') ∧
    getDirectory (.str ['a', '-', 'b', '-', 'c', '.', 't', 'x', 't']) (some ['-']) =
      .ok ['/', 'a', '-', 'b', '-'] ∧
    getDirectory (.str ['a', '.', 't', 'x', 't']) (some ['-']) = .ok ['/'] := by
  refine ⟨?_, rfl, rfl⟩
  intro p d
  obtain ⟨parts, hparts⟩ := splitPath_delimiter_ok (normalizeStr p) d
  unfold getDirectory
  simp only [normalize, bind, Except.bind, hparts]
  split
  · exact ⟨_, rfl, rfl⟩
  · split
    · exact ⟨_, rfl, rfl⟩
    · cases hl : parts[parts.length - 1]? with
      | none =>
        exfalso
        rw [List.getElem?_eq_none_iff] at hl
        omega
      | some last =>
        simp only [normalize]
        obtain ⟨t', ht'⟩ := foldl_keeps_head (delimiterOrSlash d)
          (if indexOf last '.' ≠ -1 then parts.dropLast else parts) []
        exact ⟨_, rfl, by rw [ht']; exact head_normalizeStr_abs t'⟩

/-! ### `writeFile` and the directory it ensures -/

theorem truthy_cons (c : Char) (cs : JSString) : truthy (.str (c :: cs)) = true := rfl

theorem truthy_of_ne_nil {s : JSString} (h : s ≠ []) : truthy (.str s) = true := by
  cases s with
  | nil => exact absurd rfl h
  | cons c cs => rfl

/-- With a file path and data that are non-empty strings and the callback as
third argument, `writeFile` asks `fs.ensureDir` for `getDirectory(file)`, and
asks `fs.writeFile` for the file only when that reported no error; this holds on
every file system. -/
theorem writeFile_calls {ω : Type} (fs : Fs ω) (f data dir : JSString) (cb : Callback ω)
    (w : ω) (hf : f ≠ []) (hdata : data ≠ [])
    (hdir : getDirectory (.str f) none = .ok dir) :
    writeFile fs (.str f) (.str data) (.fn cb) .undefined w =
      match fs.ensureDir dir w with
      | (err, w1) =>
        if truthy err then cb err .null w1
        else
          match fs.writeFile (.str f) (.str data) ['u', 't', 'f', '8'] w1 with
          | (err, w2) => cb err (.value (.str f)) w2 := by
  unfold writeFile
  simp only [truthy_of_ne_nil hf, truthy_of_ne_nil hdata, hdir]
  rfl

/-- `path.join` of the directory string of `ms` and one more kept segment. -/
theorem join_dirString (ms : List JSString) (last : JSString)
    (hms : ∀ s ∈ ms, Normal s) (hlast : Normal last) :
    join [.str (dirString ms), .str last] =
      .ok (assemble true false (last :: ms.reverse)) := by
  have hl : last.length > 0 := List.length_pos.2 hlast.1
  have hd : (dirString ms).length > 0 := by simp [dirString]
  have hj : join [.str (dirString ms), .str last] =
      .ok (normalizeStr (dirString ms ++ '/' :: last)) := by
    simp [join, joinLoop, hl, hd, normalize, bind, Except.bind]
  rw [hj]
  have hne : dirString ms ++ '/' :: last ≠ [] := by simp
  have habs : isAbs (dirString ms ++ '/' :: last) = true := by simp [isAbs, dirString]
  have htr : hasTrail (dirString ms ++ '/' :: last) = false := by
    unfold hasTrail
    have : (dirString ms ++ '/' :: last).getLast? = last.getLast? := by
      rw [List.getLast?_append_of_ne_nil _ (by simp)]
      cases hc : last with
      | nil => exact absurd hc hlast.1
      | cons c cs => exact List.getLast?_cons_cons
    rw [this]
    simp only [decide_eq_false_iff_not]
    intro e
    exact hlast.2.2.2 (List.mem_of_getLast?_eq_some e)
  have hsegs : normalizeSegs false (dirString ms ++ '/' :: last) = last :: ms.reverse := by
    unfold normalizeSegs
    rw [frags_append_slash, frags_dirString ms (normal_not_mem_slash hms),
      frags_of_not_mem hlast.2.2.2]
    simp only [List.foldl_cons, pushSeg_nil, List.foldl_append, List.foldl_nil]
    rw [foldl_pushSeg_normals false ms [] hms, pushSeg_normal hlast]
    simp
  rw [normalizeStr_eq _ hne, habs, htr]
  simp only [Bool.not_true]
  rw [hsegs]

/-- C12 (the code at the failing inputs): on every file system,
`writeFile('a/b.t', '1', cb)` asks `ensureDir` for `/a/`, a directory under the
root and not the `a/` that is to hold the file, before it writes `a/b.t`; and
`writeFile('/a/b', '1', cb)` asks `ensureDir` for `/a/b/`, the path of the file
itself, before it writes `/a/b`. Joining the ensured directory with the last
segment gives `/a/b.t`, not the normalized `a/b.t`, and `/a/b/b`, not `/a/b`. -/
theorem writeFile_ensures_wrong_directory {ω : Type} (fs : Fs ω) (cb : Callback ω) (w : ω) :
    writeFile fs (.str ['a', '/', 'b', '.', 't']) (.str ['1']) (.fn cb) .undefined w =
      (match fs.ensureDir ['/', 'a', '/'] w with
      | (err, w1) =>
        if truthy err then cb err .null w1
        else
          match fs.writeFile (.str ['a', '/', 'b', '.', 't']) (.str ['1'])
              ['u', 't', 'f', '8'] w1 with
          | (err, w2) => cb err (.value (.str ['a', '/', 'b', '.', 't'])) w2) ∧
    join [.str ['/', 'a', '/'], .str ['b', '.', 't']] = .ok ['/', 'a', '/', 'b', '.', 't'] ∧
    normalize (.str ['a', '/', 'b', '.', 't']) = .ok ['a', '/', 'b', '.', 't'] ∧
    (['/', 'a', '/', 'b', '.', 't'] : JSString) ≠ ['a', '/', 'b', '.', 't'] ∧
    writeFile fs (.str ['/', 'a', '/', 'b']) (.str ['1']) (.fn cb) .undefined w =
      (match fs.ensureDir ['/', 'a', '/', 'b', '/'] w with
      | (err, w1) =>
        if truthy err then cb err .null w1
        else
          match fs.writeFile (.str ['/', 'a', '/', 'b']) (.str ['1'])
              ['u', 't', 'f', '8'] w1 with
          | (err, w2) => cb err (.value (.str ['/', 'a', '/', 'b'])) w2) ∧
    join [.str ['/', 'a', '/', 'b', '/'], .str ['b']] = .ok ['/', 'a', '/', 'b', '/', 'b'] ∧
    normalize (.str ['/', 'a', '/', 'b']) = .ok ['/', 'a', '/', 'b'] ∧
    (['/', 'a', '/', 'b', '/', 'b'] : JSString) ≠ ['/', 'a', '/', 'b'] ∧
    normalize (.str ['/', 'a', '/', 'b', '/']) = .ok ['/', 'a', '/', 'b', '/'] ∧
    splitPath (.str ['/', 'a', '/', 'b', '/']) none = splitPath (.str ['/', 'a', '/', 'b']) none :=
  ⟨writeFile_calls fs _ _ _ cb w (by decide) (by decide) rfl, rfl, rfl, by decide,
    writeFile_calls fs _ _ _ cb w (by decide) (by decide) rfl, rfl, rfl, by decide, rfl, rfl⟩

/-- For every relative path the directory `writeFile` asks `ensureDir` for is in
absolute form, while the normalized path of the file is not. -/
theorem getDirectory_of_relative (f : JSString) (hf : f ≠ []) (hrel : f.head? ≠ some '/') :
    ∃ dir, getDirectory (.str f) none = .ok dir ∧ dir.head? = some '/' ∧
      (normalizeStr f).head? ≠ some '/' := by
  refine ⟨_, (getDirectory_form f).1, rfl, ?_⟩
  have h := isAbs_normalizeStr f hf
  have hr : isAbs f = false := by simpa [isAbs] using hrel
  rw [hr] at h
  simpa [isAbs] using h

/-- The segments of a path that starts with `/` are all kept segments. -/
theorem segments_abs_normal (f : JSString) (hf : f ≠ []) (ha : isAbs f = true) :
    ∀ s ∈ segments f, Normal s := by
  obtain ⟨ns, k, hR, hns, hk⟩ := normalizeSegs_reduced (!isAbs f) f
  have hk0 : k = 0 := hk (by simp [ha])
  subst hk0
  simp only [List.replicate_zero, List.append_nil] at hR
  have hsegs := segments_eq f hf
  intro s hs
  rw [hsegs, hR] at hs
  split at hs
  · simp [ha] at hs
  · exact hns s (by simpa using hs)

/-- For every path that starts with `/` and whose last segment has no `.`, the
directory `writeFile` asks `ensureDir` for has the segments of the file path: it
is the path of the file itself. -/
theorem getDirectory_of_extensionless (f last : JSString) (parts : List JSString)
    (habs : f.head? = some '/') (hparts : splitPath (.str f) none = .ok parts)
    (hlast : parts.getLast? = some last) (hdot : '.' ∉ last) :
    ∃ dir, getDirectory (.str f) none = .ok dir ∧ splitPath (.str dir) none = .ok parts := by
  have hp : f ≠ [] := by intro e; subst e; simp at habs
  have hseg := splitPath_segments hparts hp
  subst hseg
  have ha : isAbs f = true := by simp [isAbs, habs]
  have hms := segments_abs_normal f hp ha
  have hkept : keptSegs (segments f) = segments f := by
    unfold keptSegs
    rw [getElem?_last, hlast]
    simp [(indexOf_eq_neg_one last '.').2 hdot]
  have hdir : getDirectory (.str f) none = .ok (dirString (segments f)) := by
    rw [getDirectory_str, dirOfSegs_normal _ hms, hkept]
  refine ⟨_, hdir, ?_⟩
  rw [splitPath_str _ (by simp [dirString]), segments_dirString _ hms]

/-- For every file path `f` that starts with `/`, does not end with `/` and whose
last segment has a `.`, the directory `writeFile` asks `ensureDir` for is the one
that holds the file: joining it with the last segment of `f` gives the
normalized `f`. -/
theorem writeFile_ensures_parent {ω : Type} (fs : Fs ω) (f data last : JSString)
    (parts : List JSString) (cb : Callback ω) (w : ω)
    (habs : f.head? = some '/') (hnt : f.getLast? ≠ some '/') (hdata : data ≠ [])
    (hparts : splitPath (.str f) none = .ok parts) (hlast : parts.getLast? = some last)
    (hdot : '.' ∈ last) :
    ∃ dir, getDirectory (.str f) none = .ok dir ∧
      writeFile fs (.str f) (.str data) (.fn cb) .undefined w =
        (match fs.ensureDir dir w with
        | (err, w1) =>
          if truthy err then cb err .null w1
          else
            match fs.writeFile (.str f) (.str data) ['u', 't', 'f', '8'] w1 with
            | (err, w2) => cb err (.value (.str f)) w2) ∧
      join [.str dir, .str last] = normalize (.str f) := by
  have hp : f ≠ [] := by intro e; subst e; simp at habs
  have hseg := splitPath_segments hparts hp
  subst hseg
  have ha : isAbs f = true := by simp [isAbs, habs]
  have ht : hasTrail f = false := by simp [hasTrail, hnt]
  have hne : segments f ≠ [] := by intro e; rw [e] at hlast; simp at hlast
  obtain ⟨ns, k, hR, hns, hk⟩ := normalizeSegs_reduced (!isAbs f) f
  have hk0 : k = 0 := hk (by simp [ha])
  subst hk0
  simp only [List.replicate_zero, List.append_nil] at hR
  have hsegs := segments_eq f hp
  have hRne : normalizeSegs (!isAbs f) f ≠ [] := by
    intro e
    rw [e, ha] at hsegs
    exact hne (by simpa using hsegs)
  rw [if_neg hRne, hR] at hsegs
  have hms : ∀ s ∈ segments f, Normal s := by
    intro s hs; rw [hsegs] at hs; exact hns s (by simpa using hs)
  have hdl : segments f = (segments f).dropLast ++ [last] := by
    have h1 := List.dropLast_append_getLast? last hlast
    exact h1.symm
  have hkept : keptSegs (segments f) = (segments f).dropLast := by
    unfold keptSegs
    rw [getElem?_last, hlast]
    simp [(indexOf_ne_neg_one last '.').2 hdot]
  have hdir : getDirectory (.str f) none = .ok (dirString (segments f).dropLast) := by
    rw [getDirectory_str, dirOfSegs_normal _ hms, hkept]
  have hmsd : ∀ s ∈ (segments f).dropLast, Normal s :=
    fun s hs => hms s (List.mem_of_mem_dropLast hs)
  have hlastN : Normal last := hms last (List.mem_of_getLast?_eq_some hlast)
  refine ⟨_, hdir, writeFile_calls fs f data _ cb w hp hdata hdir, ?_⟩
  rw [join_dirString _ last hmsd hlastN]
  simp only [normalize]
  rw [ha] at hR
  rw [normalizeStr_eq f hp, ha, ht, hR]
  congr 2
  have : ns = (segments f).reverse := by rw [hsegs]; simp
  rw [this]
  conv_rhs => rw [hdl]
  simp

/-! ### `readFiles` -/

theorem flatten_values (l : List JSValue) :
    flatten (l.map JSResult.value) = l.map JSResult.value := by
  induction l with
  | nil => rfl
  | cons v vs ih => simp [flatten, ih]

theorem mapLimit_read_all (w : MemWorld) (enc : Option JSString)
    (final : JSValue → List JSResult → MemWorld → Outcome MemWorld) (queue : List JSString) :
    ∀ results : List JSResult, (∀ p ∈ queue, (w.files.lookup p).isSome = true) →
      mapLimit (fun file cb w =>
          if !memFs.«exists» file w then
            cb (.str (("File does not exist ").toList ++ file)) .null w
          else
            match memFs.readFile file enc w with
            | (err, data) => cb err (.value data) w) final queue results w =
        final .null (results ++ queue.map fun p => .value (contentOf w p)) w := by
  induction queue with
  | nil => intro results _; simp [mapLimit]
  | cons p ps ih =>
    intro results h
    have hp := h p (by simp)
    obtain ⟨c, hc⟩ := Option.isSome_iff_exists.1 hp
    rw [mapLimit]
    simp only [memFs, hc, Option.isSome_some, Bool.not_true, Bool.false_eq_true, if_false, truthy]
    have := ih (results ++ [JSResult.value (JSValue.str c)]) (fun q hq => h q (by simp [hq]))
    simp only [memFs] at this
    rw [this]
    simp [contentOf, hc]

theorem mapLimit_read_missing (w : MemWorld) (enc : Option JSString)
    (final : JSValue → List JSResult → MemWorld → Outcome MemWorld)
    (pre post : List JSString) (p : JSString) (hmiss : w.files.lookup p = none) :
    ∀ results : List JSResult, (∀ q ∈ pre, (w.files.lookup q).isSome = true) →
      mapLimit (fun file cb w =>
          if !memFs.«exists» file w then
            cb (.str (("File does not exist ").toList ++ file)) .null w
          else
            match memFs.readFile file enc w with
            | (err, data) => cb err (.value data) w) final (pre ++ p :: post) results w =
        final (.str (("File does not exist ").toList ++ p))
          (results ++ (pre.map fun q => .value (contentOf w q)) ++ [.null]) w := by
  induction pre with
  | nil =>
    intro results _
    rw [List.nil_append, mapLimit]
    simp only [memFs, hmiss, Option.isSome_none, Bool.not_false, if_true]
    have ht : truthy (.str (("File does not exist ").toList ++ p)) = true := rfl
    rw [if_pos ht]
    simp
  | cons q qs ih =>
    intro results h
    have hq := h q (by simp)
    obtain ⟨c, hc⟩ := Option.isSome_iff_exists.1 hq
    rw [List.cons_append, mapLimit]
    simp only [memFs, hc, Option.isSome_some, Bool.not_true, Bool.false_eq_true, if_false, truthy]
    have := ih (results ++ [JSResult.value (JSValue.str c)]) (fun r hr => h r (by simp [hr]))
    simp only [memFs] at this
    rw [this]
    simp [contentOf, hc]

theorem readFiles_arr (w : MemWorld) (paths : List JSString) (cb : Callback MemWorld)
    (rest : List (Arg MemWorld)) (hrest : rest = [.fn cb] ∨ ∃ e, rest = [e, .fn cb]) :
    ∃ enc : Option JSString,
      readFiles memFs (.arr paths) rest w =
        mapLimit (fun file cb w =>
            if !memFs.«exists» file w then
              cb (.str (("File does not exist ").toList ++ file)) .null w
            else
              match memFs.readFile file enc w with
              | (err, data) => cb err (.value data) w)
          (fun err results w =>
            if truthy err then cb err .null w
            else cb .null (.array (flatten results)) w)
          paths [] w := by
  rcases hrest with rfl | ⟨e, rfl⟩
  · exact ⟨none, rfl⟩
  · exact ⟨match e with | .str s => some s | _ => none, rfl⟩

/-- C13: over a file system that is a map from paths to contents, for every list
of paths that all exist `readFiles` calls back once, with no error and the list
of the contents of the paths in the order of the paths; and if some path does
not exist it calls back once with the error `'File does not exist '` followed by
the first such path, and a `null` result. -/
theorem readFiles_preserves_order (w : MemWorld) (paths : List JSString)
    (cb : Callback MemWorld) (rest : List (Arg MemWorld))
    (hrest : rest = [.fn cb] ∨ ∃ e, rest = [e, .fn cb]) :
    ((∀ p ∈ paths, (w.files.lookup p).isSome = true) →
      readFiles memFs (.arr paths) rest w =
        cb .null (.array (paths.map fun p => .value (contentOf w p))) w) ∧
    (∀ (pre post : List JSString) (p : JSString), paths = pre ++ p :: post →
      (∀ q ∈ pre, (w.files.lookup q).isSome = true) → w.files.lookup p = none →
      readFiles memFs (.arr paths) rest w =
        cb (.str (("File does not exist ").toList ++ p)) .null w) := by
  obtain ⟨enc, henc⟩ := readFiles_arr w paths cb rest hrest
  constructor
  · intro hall
    rw [henc, mapLimit_read_all w enc _ paths [] hall]
    have hf := flatten_values (paths.map fun p => contentOf w p)
    simp only [List.map_map] at hf
    simp only [truthy, Bool.false_eq_true, if_false, List.nil_append]
    rw [show (paths.map fun p => JSResult.value (contentOf w p)) =
      paths.map (JSResult.value ∘ fun p => contentOf w p) from rfl, hf]
  · intro pre post p hpaths hpre hmiss
    rw [henc, hpaths, mapLimit_read_missing w enc _ pre post p hmiss [] hpre]
    have ht : truthy (.str (("File does not exist ").toList ++ p)) = true := rfl
    simp only [ht, if_true]

theorem readFiles_preserves_order_witness :
    ([Arg.fn record] = [Arg.fn record] ∨ ∃ e, [Arg.fn record] = [e, Arg.fn record]) ∧
    (∀ p ∈ ([['/', 'b'], ['/', 'a']] : List JSString),
      (sampleWorld.files.lookup p).isSome = true) ∧
    readFiles memFs (.arr [['/', 'b'], ['/', 'a']]) [.fn record] sampleWorld =
      record .null
        (.array (([['/', 'b'], ['/', 'a']] : List JSString).map fun p =>
          .value (contentOf sampleWorld p))) sampleWorld ∧
    ([['/', 'b'], ['/', 'c'], ['/', 'a']] : List JSString) =
      [['/', 'b']] ++ ['/', 'c'] :: [['/', 'a']] ∧
    (∀ q ∈ ([['/', 'b']] : List JSString), (sampleWorld.files.lookup q).isSome = true) ∧
    sampleWorld.files.lookup ['/', 'c'] = none ∧
    readFiles memFs (.arr [['/', 'b'], ['/', 'c'], ['/', 'a']]) [.fn record] sampleWorld =
      record (.str (("File does not exist ").toList ++ ['/', 'c'])) .null sampleWorld :=
  ⟨Or.inl rfl, by decide,
    (readFiles_preserves_order sampleWorld [['/', 'b'], ['/', 'a']] record [.fn record]
      (Or.inl rfl)).1 (by decide),
    rfl, by decide, rfl,
    (readFiles_preserves_order sampleWorld [['/', 'b'], ['/', 'c'], ['/', 'a']] record
      [.fn record] (Or.inl rfl)).2 [['/', 'b']] [['/', 'a']] ['/', 'c'] rfl (by decide) rfl⟩

/-! ### `writeFiles` on malformed entries -/

/-- C15 (the code at the failing inputs): on `[{path: '/a/x.t', data: '1'},
{path: '/b/y.t'}]` `writeFiles` calls back once with the error for the missing
`data`, then writes `/a/x.t` all the same and ends in a `TypeError`; on
`[{data: 'd'}, 'x']` it calls back twice. -/
theorem writeFiles_not_atomic :
    writeFiles memFs
        (.arr [.obj (.str ['/', 'a', '/', 'x', '.', 't']) (.str ['1']) .undefined,
               .obj (.str ['/', 'b', '/', 'y', '.', 't']) .undefined .undefined])
        (.fn record) ⟨[], [], []⟩ =
      ⟨⟨[(['/', 'a', '/', 'x', '.', 't'], ['1'])], [['/', 'a', '/']],
         [(.str ("Malformed file object in files array. Expected key data").toList, .null)]⟩,
       some .typeError⟩ ∧
    writeFiles memFs (.arr [.obj .undefined (.str ['d']) .undefined, .prim (.str ['x'])])
        (.fn record) ⟨[], [], []⟩ =
      ⟨⟨[], [],
         [(.str ("Malformed file object in files array. Expected key path").toList, .null),
          (.str ("Type object expected in files Array").toList, .null)]⟩,
       some .typeError⟩ :=
  ⟨rfl, rfl⟩

/-! ### The cases of the test suite -/

/-- The `getDirectory` cases of `src/test/index.spec.js`. -/
theorem test_getDirectory :
    getDirectory (.str ['/', 'p', 'a', 't', 'h', '1', '/', 'p', 'a', 't', 'h', '2', '/', 'p',
      'a', 't', 'h', '3', '/', 'm', 'y', 'F', 'i', 'l', 'e', '.', 't', 'x', 't']) none =
      .ok ['/', 'p', 'a', 't', 'h', '1', '/', 'p', 'a', 't', 'h', '2', '/', 'p', 'a', 't', 'h',
        '3', '/'] ∧
    getDirectory (.str ['p', 'a', 't', 'h', '1', '/', '/', '/', '/', 'p', 'a', 't', 'h', '2',
      '/', 'p', 'a', 't', 'h', '3', '/', '/', 'm', 'y', 'F', 'i', 'l', 'e', '.', 't', 'x',
      't']) none =
      .ok ['/', 'p', 'a', 't', 'h', '1', '/', 'p', 'a', 't', 'h', '2', '/', 'p', 'a', 't', 'h',
        '3', '/'] ∧
    getDirectory (.str ['/']) none =
      .ok ['/'] ∧
    getDirectory (.str ['/', 'm', 'y', 'F', 'i', 'l', 'e', '.', 't', 'x', 't']) none =
      .ok ['/'] ∧
    getDirectory (.str ['m', 'y', 'F', 'i', 'l', 'e', '.', 't', 'x', 't', '/']) none =
      .ok ['/'] ∧
    getDirectory (.str ['/', '/', '/', 'm', 'y', 'F', 'i', 'l', 'e', '.', 't', 'x', 't',
      '/']) none =
      .ok ['/'] ∧
    getDirectory (.str ['/', '/', '/', 'm', 'y', 'F', 'i', 'l', 'e', '.', 't', 'x', 't', '/',
      '/', '/', '/']) none =
      .ok ['/'] :=
  ⟨rfl, rfl, rfl, rfl, rfl, rfl, rfl⟩

/-- The `splitPath` cases of `src/test/index.spec.js`. -/
theorem test_splitPath :
    splitPath (.str ['/', 'p', 'a', 't', 'h', '1', '/', 'p', 'a', 't', 'h', '2', '/', 'm', 'y',
      'F', 'i', 'l', 'e', '.', 't', 'x', 't']) none =
      .ok [['p', 'a', 't', 'h', '1'], ['p', 'a', 't', 'h', '2'], ['m', 'y', 'F', 'i', 'l', 'e',
        '.', 't', 'x', 't']] ∧
    splitPath (.str ['/', 'p', 'a', 't', 'h', '1', '/', 'p', 'a', 't', 'h', '2', '/', 'p', 'a',
      't', 'h', '3', '/', 'p', 'a', 't', 'h', '4', '/', 'p', 'a', 't', 'h', '5', '/', 'p', 'a',
      't', 'h', '6', '/', 'p', 'a', 't', 'h', '7', '/', 'm', 'y', 'F', 'i', 'l', 'e', '.', 't',
      'x', 't']) none =
      .ok [['p', 'a', 't', 'h', '1'], ['p', 'a', 't', 'h', '2'], ['p', 'a', 't', 'h', '3'], ['p',
        'a', 't', 'h', '4'], ['p', 'a', 't', 'h', '5'], ['p', 'a', 't', 'h', '6'], ['p', 'a',
        't', 'h', '7'], ['m', 'y', 'F', 'i', 'l', 'e', '.', 't', 'x', 't']] ∧
    splitPath (.str []) none = .ok [] ∧
    splitPath .undefined none = .ok [] :=
  ⟨rfl, rfl, rfl, rfl⟩

/-- The `isDirectory` cases of the specification. -/
theorem test_isDirectory :
    isDirectory (.str ['h', 'e', 'l', 'l', 'o']) = .ok true ∧
    isDirectory (.str ['/', 'U', 's', 'e', 'r', 's', '/', 'b', 'o', 'o', 'm', '/', 'm', 'y', 'F',
      'i', 'l', 'e', '.', 'j', 's', 'o', 'n']) = .ok false :=
  ⟨rfl, rfl⟩

/-- The `getFileObject` cases of `src/test/index.spec.js`, with `sampleDb`. -/
theorem test_getFileObject :
    getFileObject sampleDb (.str ['/', 'U', 's', 'e', 'r', 's', '/', 'b', 'o', 'o', 'm', '/',
      'm', 'y', 'F', 'i', 'l', 'e', '.', 't', 'x', 't']) =
      .ok (some { mimetype := some ['t', 'e', 'x', 't', '/', 'p', 'l', 'a', 'i', 'n'],
                  name := ['m', 'y', 'F', 'i', 'l', 'e', '.', 't', 'x', 't'],
                  path := ['/', 'U', 's', 'e', 'r', 's', '/', 'b', 'o', 'o', 'm', '/', 'm', 'y',
                    'F', 'i', 'l', 'e', '.', 't', 'x', 't'],
                  dir := ['/', 'U', 's', 'e', 'r', 's', '/', 'b', 'o', 'o', 'm', '/'],
                  extension := ['t', 'x', 't'] }) ∧
    getFileObject sampleDb (.str ['/', '/', '/', 'U', 's', 'e', 'r', 's', '/', '/', '/', 'b',
      'o', 'o', 'm', '/', 'm', 'y', 'F', 'i', 'l', 'e', '.', 'b', 'o', 'o', '.', 't', 'x', 't']) =
      .ok (some { mimetype := some ['t', 'e', 'x', 't', '/', 'p', 'l', 'a', 'i', 'n'],
                  name := ['m', 'y', 'F', 'i', 'l', 'e', '.', 'b', 'o', 'o', '.', 't', 'x', 't'],
                  path := ['/', 'U', 's', 'e', 'r', 's', '/', 'b', 'o', 'o', 'm', '/', 'm', 'y',
                    'F', 'i', 'l', 'e', '.', 'b', 'o', 'o', '.', 't', 'x', 't'],
                  dir := ['/', 'U', 's', 'e', 'r', 's', '/', 'b', 'o', 'o', 'm', '/'],
                  extension := ['t', 'x', 't'] }) ∧
    getFileObject sampleDb (.str ['/', 'U', 's', 'e', 'r', 's', '/', 'b', 'o', 'o', 'm', '/']) =
      .ok (some { mimetype := none,
                  name := [],
                  path := ['/', 'U', 's', 'e', 'r', 's', '/', 'b', 'o', 'o', 'm', '/'],
                  dir := ['/', 'U', 's', 'e', 'r', 's', '/', 'b', 'o', 'o', 'm', '/'],
                  extension := [] }) ∧
    getFileObject sampleDb (.str []) = .ok none ∧
    getFileObject sampleDb .null = .ok none ∧
    getFileObject sampleDb .undefined = .ok none :=
  ⟨rfl, rfl, rfl, rfl, rfl, rfl⟩

/-- The `writeFile` and `writeFiles` cases of `src/test/index.spec.js`: what the
callback receives, the file system recording every request as done. -/
theorem test_writeFiles :
    (writeFile memFs (.str ['/', 't', '/', 'f', '.', 't']) (.str ['1']) (.fn record)
        .undefined ⟨[], [], []⟩).world.calls =
      [(.null, .value (.str ['/', 't', '/', 'f', '.', 't']))] ∧
    (writeFile memFs (.str ['/', 't', '/', 'f', '.', 't']) (.str ['1'])
        (.str ['b', 'a', 's', 'e', '6', '4']) (.fn record) ⟨[], [], []⟩).world.calls =
      [(.null, .value (.str ['/', 't', '/', 'f', '.', 't']))] ∧
    (writeFiles memFs
        (.arr [.obj (.str ['/', 't', '/', '3', '/', 'a', '.', 't']) (.str ['1']) .undefined,
               .obj (.str ['/', 't', '/', '3']) (.str ['2']) (.str ['b', '.', 't'])])
        (.fn record) ⟨[], [], []⟩).world.calls =
      [(.null, .array [.value (.str ['/', 't', '/', '3', '/', 'a', '.', 't']),
                       .value (.str ['/', 't', '/', '3', '/', 'b', '.', 't'])])] :=
  ⟨rfl, rfl, rfl⟩

end FileUtil
